import Mathlib

/-!
Verification of `HashMap.h`: a chained hash map with quadratic probing

A shallow embedding of `src/HashMap.h` (class template `HashMap<T>`).

* `std::list<std::pair<std::string, T>>` is `List (String × T)`; the array `map` of
  `mapSize` such lists is a `List` of buckets.  The constructor allocates exactly
  `size` lists and stores `size` in `mapSize`; this class invariant is the predicate
  `HashMap.WF`.
* `T()` is `default` (`Inhabited T`) and `!=` on `T` is decidable equality.
* `unsigned int itemsInMap` wraps modulo `2^32`; `unsigned long sum` in `hash` wraps
  modulo `2^64`.  Indices `(startIndex + increment * increment) % mapSize` are computed
  exactly (`increment ≤ 6`).
* A key is a `String`; its `char`s are the bytes of its UTF-8 encoding, read as signed
  8-bit values (`charValues`).  The `int` arithmetic of `hash` is 32-bit two's complement
  (`wrapInt`); keys are shorter than `2^31` bytes.
* For `mapSize = 0` the source divides by zero; the embedding is meant for `mapSize ≥ 1`.
-/

namespace HashMapSpec

/-- One chain of the table: `std::list<std::pair<std::string, T>>`. -/
abbrev Bucket (T : Type) := List (String × T)

/-- The private members of `HashMap<T>`. -/
structure HashMap (T : Type) where
  map : List (Bucket T)
  itemsInMap : Nat
  mapSize : Nat
deriving DecidableEq, Repr

namespace HashMap

variable {T : Type}

/-- Constructor `HashMap(const int size)`: `size` empty lists, `mapSize = size`, `itemsInMap = 0`. -/
def new (T : Type) (size : Nat) : HashMap T :=
  { map := List.replicate size [], itemsInMap := 0, mapSize := size }

/-- Class invariant established by the constructor: the array holds `mapSize` lists. -/
def WF (m : HashMap T) : Prop := m.map.length = m.mapSize

instance (m : HashMap T) : Decidable m.WF := by
  unfold WF; infer_instance

/-- The bytes of the UTF-8 encoding of a character: the `char`s a `std::string` holds
for it. -/
def utf8Bytes (c : Char) : List Nat :=
  let v := c.toNat
  if v < 128 then [v]
  else if v < 2048 then [192 + v / 64, 128 + v % 64]
  else if v < 65536 then [224 + v / 4096, 128 + v / 64 % 64, 128 + v % 64]
  else [240 + v / 262144, 128 + v / 4096 % 64, 128 + v / 64 % 64, 128 + v % 64]

/-- The conversion `int(key[i])` of a byte held in a signed `char`. -/
def charValue (b : Nat) : Int := if b < 128 then (b : Int) else (b : Int) - 256

/-- The values `int(key[0]), int(key[1]), ...` of a key. -/
def charValues (key : String) : List Int := (key.data.flatMap utf8Bytes).map charValue

/-- A value of type `int`: the 32-bit two's complement representative of `x`. -/
def wrapInt (x : Int) : Int := (x + 2 ^ 31) % 2 ^ 32 - 2 ^ 31

/-- The loop of `hash`: position `i`, running `sum` (an `unsigned long`).  The
multiplier and the product are `int`s; adding the product to `sum` converts it to
`unsigned long`, that is modulo `2^64`. -/
def hashLoop : List Int → Nat → Nat → Nat
  | [], _, sum => sum
  | c :: cs, i, sum =>
    let multiplier := wrapInt (((i : Int) + 1) * ((i : Int) + 1))
    hashLoop cs (i + 1) (((sum : Int) + wrapInt (c * multiplier)) % 2 ^ 64).toNat

/-- Method `HashMap<T>::hash`: the weighted character sum modulo `mapSize`. -/
def hash (m : HashMap T) (key : String) : Nat :=
  hashLoop (charValues key) 0 0 % m.mapSize

/-- The list `map[i]`. -/
def listAt (m : HashMap T) (i : Nat) : Bucket T := m.map.getD i []

/-- The index expression `(startIndex + increment * increment) % mapSize` used by
`set`, `get` and `remove`. -/
def probeIndex (m : HashMap T) (startIndex increment : Nat) : Nat :=
  (startIndex + increment * increment) % m.mapSize

/-- The inner `for` loop shared by `set`, `get` and `remove`: the value of the first
pair of the list whose `first` equals `key`. -/
def scanList (key : String) : Bucket T → Option T
  | [] => none
  | p :: ps => if p.1 = key then some p.2 else scanList key ps

/-- The assignment `itPair->second = value` at the first pair whose `first` equals `key`. -/
def assignFirst (key : String) (value : T) : Bucket T → Bucket T
  | [] => []
  | p :: ps => if p.1 = key then (p.1, value) :: ps else p :: assignFirst key value ps

/-- A write through the pointer `listAtKey = &map[i]`: the list `map[i]` becomes `b`. -/
def storeList (m : HashMap T) (i : Nat) (b : Bucket T) : HashMap T :=
  { m with map := m.map.set i b }

/-- How the `do ... while` loop of `set` is left. -/
inductive SetExit (T : Type) where
  /-- A pair with the key was met in `map[insertIndex]`; `second` is its value. -/
  | found (insertIndex : Nat) (second : T)
  /-- The loop condition failed after inspecting `map[insertIndex]`. -/
  | done (insertIndex : Nat) (smallestListIndex : Nat)
deriving DecidableEq, Repr

/-- The index of the list the loop of `set` inspected last (`listAtKey` at exit). -/
def SetExit.index : SetExit T → Nat
  | SetExit.found insertIndex _ => insertIndex
  | SetExit.done insertIndex _ => insertIndex

/-- The `do ... while` loop of `set`.  The first argument is `5 - rehashAttempts`
after the increment at the end of the body, so the condition `rehashAttempts < 5`
reads `0 < remaining`. -/
def setLoop (m : HashMap T) (key : String) (startIndex : Nat) :
    Nat → Nat → Nat → Nat → SetExit T
  | remaining, increment, smallestListSize, smallestListIndex =>
    let insertIndex := m.probeIndex startIndex increment
    let listAtKey := m.listAt insertIndex
    match scanList key listAtKey with
    | some second => SetExit.found insertIndex second
    | none =>
      let listSize := listAtKey.length
      let smallest : Nat × Nat :=
        if listSize ≤ smallestListSize then (listSize, insertIndex)
        else (smallestListSize, smallestListIndex)
      match remaining with
      | 0 => SetExit.done insertIndex smallest.2
      | r + 1 =>
        if 0 < listAtKey.length then setLoop m key startIndex r (increment + 1) smallest.1 smallest.2
        else SetExit.done insertIndex smallest.2

/-- Method `HashMap<T>::set`.  After the loop `listAtKey` still points at the list inspected
last; the assignment `insertIndex = smallestListIndex` does not move it, so that is
the list `push_back` extends. -/
def set [Inhabited T] [DecidableEq T] (m : HashMap T) (key : String) (value : T) :
    Bool × HashMap T :=
  if key = "" then (false, m)
  else
    let startIndex := m.hash key
    match setLoop m key startIndex 5 0 32767 startIndex with
    | SetExit.found insertIndex second =>
      if second ≠ default then (false, m)
      else (true, m.storeList insertIndex (assignFirst key value (m.listAt insertIndex)))
    | SetExit.done insertIndex _ =>
      let listAtKey := m.listAt insertIndex
      let incrementNumberOfItems : Bool := if 0 < listAtKey.length then false else true
      (true, { m.storeList insertIndex (listAtKey ++ [(key, value)]) with
        itemsInMap :=
          if incrementNumberOfItems then (m.itemsInMap + 1) % 2 ^ 32 else m.itemsInMap })

/-- The `for (int i = 0; i <= 6; i++)` loop of `get`; the first argument counts the
iterations still to run. -/
def getLoop [Inhabited T] (m : HashMap T) (key : String) (startIndex : Nat) : Nat → Nat → T
  | 0, _ => default
  | n + 1, increment =>
    let getIndex := m.probeIndex startIndex increment
    match scanList key (m.listAt getIndex) with
    | some second => second
    | none => getLoop m key startIndex n (increment + 1)

/-- Method `HashMap<T>::get`. -/
def get [Inhabited T] (m : HashMap T) (key : String) : T :=
  if key = "" then default else getLoop m key (m.hash key) 7 0

/-- The `for (int i = 0; i <= 6; i++)` loop of `remove`. -/
def removeLoop [Inhabited T] (m : HashMap T) (key : String) (startIndex : Nat) :
    Nat → Nat → T × HashMap T
  | 0, _ => (default, m)
  | n + 1, increment =>
    let removeIndex := m.probeIndex startIndex increment
    match scanList key (m.listAt removeIndex) with
    | some value =>
      (value, m.storeList removeIndex (assignFirst key default (m.listAt removeIndex)))
    | none => removeLoop m key startIndex n (increment + 1)

/-- Method `HashMap<T>::remove`. -/
def remove [Inhabited T] (m : HashMap T) (key : String) : T × HashMap T :=
  if key = "" then (default, m) else removeLoop m key (m.hash key) 7 0

/-- Method `HashMap<T>::load`, as the exact quotient `itemsInMap / mapSize` (the
rounding of `float` is not modelled). -/
def load (m : HashMap T) : ℚ := (m.itemsInMap : ℚ) / (m.mapSize : ℚ)

/-- Reference lookup, written after the specification: the entries of the seven lists
at indices `(hash key + a * a) % mapSize`, `a = 0, ..., 6`, in scan order. -/
def probedEntries (m : HashMap T) (key : String) : List (String × T) :=
  ((List.range 7).map (fun a => m.listAt ((m.hash key + a * a) % m.mapSize))).flatten

/-- Reference lookup, written after the specification: the value of the first probed
entry with the key; the type default if there is none or the key is empty. -/
def getRef [Inhabited T] (m : HashMap T) (key : String) : T :=
  if key = "" then default
  else match (m.probedEntries key).find? (fun p => decide (p.1 = key)) with
    | some p => p.2
    | none => default

/-- Position of the first pair of a list whose `first` equals `key`. -/
def firstPos (key : String) : Bucket T → Nat
  | [] => 0
  | p :: ps => if p.1 = key then 0 else firstPos key ps + 1

/-- Total number of pairs stored in the table. -/
def numEntries (m : HashMap T) : Nat := (m.map.map List.length).sum

/-- Number of non-empty lists of the table. -/
def nonEmptyLists (m : HashMap T) : Nat := m.map.countP (fun b => !b.isEmpty)

/-- A call of the public interface that may change the table. -/
inductive Op (T : Type) where
  | set (key : String) (value : T)
  | get (key : String)
  | remove (key : String)
deriving DecidableEq, Repr

/-- The table after one call (`get` is `const`). -/
def step [Inhabited T] [DecidableEq T] (m : HashMap T) : Op T → HashMap T
  | Op.set key value => (m.set key value).2
  | Op.get _ => m
  | Op.remove key => (m.remove key).2

/-- The table after a sequence of calls. -/
def run [Inhabited T] [DecidableEq T] (m : HashMap T) (ops : List (Op T)) : HashMap T :=
  ops.foldl step m

/-- The table after inserting the pairs of a list in order. -/
def setAll [Inhabited T] [DecidableEq T] (m : HashMap T) : List (String × T) → HashMap T
  | [] => m
  | kv :: rest => setAll (m.set kv.1 kv.2).2 rest

/-- The call `set key value` succeeds and lands in a list that was empty before it. -/
def LandsInEmpty [Inhabited T] [DecidableEq T] (m : HashMap T) (key : String) (value : T) :
    Prop :=
  (m.set key value).1 = true ∧
    ∃ i, i < m.map.length ∧ m.listAt i = [] ∧ (m.set key value).2.listAt i = [(key, value)]

instance [Inhabited T] [DecidableEq T] (m : HashMap T) (key : String) (value : T) :
    Decidable (m.LandsInEmpty key value) := by
  unfold LandsInEmpty; infer_instance

/-- Every insertion of the sequence succeeds and lands in a previously empty list. -/
def AllLandInEmpty [Inhabited T] [DecidableEq T] (m : HashMap T) : List (String × T) → Prop
  | [] => True
  | kv :: rest => m.LandsInEmpty kv.1 kv.2 ∧ AllLandInEmpty (m.set kv.1 kv.2).2 rest

instance [Inhabited T] [DecidableEq T] (m : HashMap T) (kvs : List (String × T)) :
    Decidable (m.AllLandInEmpty kvs) := by
  induction kvs generalizing m with
  | nil => unfold AllLandInEmpty; infer_instance
  | cons kv rest ih =>
    unfold AllLandInEmpty
    exact @instDecidableAnd _ _ _ (ih _)

/-- Every stored pair lies in a list that the loop of `set` reaches for its key: the list
at some attempt `a ≤ 5` of the key, all lists at earlier attempts being non-empty. -/
def Placed (m : HashMap T) : Prop :=
  ∀ i, ∀ p ∈ m.listAt i, ∃ a, a ≤ 5 ∧ m.probeIndex (m.hash p.1) a = i ∧
    ∀ b, b < a → m.listAt (m.probeIndex (m.hash p.1) b) ≠ []

/-- A table of capacity 10 in which the key `"a"` was stored and then removed: list 7
holds the pair `("a", 0)`. -/
def removedTable : HashMap Int := (((HashMap.new Int 10).set "a" 5).2.remove "a").2

/-- Reference hash, written after the specification: the sum over the positions `i`
(from 0) of `charCode(key[i]) * (i + 1)^2`. -/
def weightedSum (key : String) : Nat :=
  ((List.enumFrom 0 key.data).map (fun ic => ic.2.toNat * (ic.1 + 1) ^ 2)).sum

/-- Every insertion of the sequence returns `true`. -/
def AllSucceed [Inhabited T] [DecidableEq T] (m : HashMap T) : List (String × T) → Prop
  | [] => True
  | kv :: rest => (m.set kv.1 kv.2).1 = true ∧ AllSucceed (m.set kv.1 kv.2).2 rest

/-- The table of capacity 2 after `set "a" 1; set "c" 2; set "e" 3`: list 0 holds
`"c"` and `"e"`, list 1 holds `"a"`. -/
def crowdedTable : HashMap Int :=
  (HashMap.new Int 2).run [Op.set "a" 1, Op.set "c" 2, Op.set "e" 3]

/-- The table of capacity 1 after `set "a" 5; set "b" 6`: list 0 holds both pairs. -/
def pairTable : HashMap Int := (((HashMap.new Int 1).set "a" 5).2.set "b" 6).2

/-- All keys stored in the table, list by list, each list front to back. -/
def allKeys (m : HashMap T) : List String := m.map.flatten.map Prod.fst

/-! ## Lists of the table -/

theorem storeList_mapSize (m : HashMap T) (i : Nat) (b : Bucket T) :
    (m.storeList i b).mapSize = m.mapSize := rfl

theorem storeList_itemsInMap (m : HashMap T) (i : Nat) (b : Bucket T) :
    (m.storeList i b).itemsInMap = m.itemsInMap := rfl

theorem storeList_length (m : HashMap T) (i : Nat) (b : Bucket T) :
    (m.storeList i b).map.length = m.map.length := by
  simp [storeList]

theorem listAt_storeList_self (m : HashMap T) (i : Nat) (b : Bucket T)
    (hi : i < m.map.length) : (m.storeList i b).listAt i = b := by
  simp [storeList, listAt, List.getD_eq_getElem?_getD, hi]

theorem listAt_storeList_ne (m : HashMap T) (i j : Nat) (b : Bucket T)
    (hij : j ≠ i) : (m.storeList i b).listAt j = m.listAt j := by
  have : i ≠ j := fun h => hij h.symm
  simp [storeList, listAt, List.getD_eq_getElem?_getD, List.getElem?_set_ne this]

theorem probeIndex_lt (m : HashMap T) (hwf : m.WF) (h1 : 1 ≤ m.mapSize) (s a : Nat) :
    m.probeIndex s a < m.map.length := by
  rw [hwf]
  exact Nat.mod_lt _ h1

theorem hash_lt (m : HashMap T) (h1 : 1 ≤ m.mapSize) (key : String) :
    m.hash key < m.mapSize := Nat.mod_lt _ h1

theorem hash_congr (m m' : HashMap T) (h : m'.mapSize = m.mapSize) (key : String) :
    m'.hash key = m.hash key := by
  simp [hash, h]

theorem probeIndex_congr (m m' : HashMap T) (h : m'.mapSize = m.mapSize) (s a : Nat) :
    m'.probeIndex s a = m.probeIndex s a := by
  simp [probeIndex, h]

/-! ## Scanning and assigning in one list -/

theorem scanList_append_of_none (key : String) (value : T) (l : Bucket T)
    (h : scanList key l = none) : scanList key (l ++ [(key, value)]) = some value := by
  induction l with
  | nil => simp [scanList]
  | cons p ps ih =>
    by_cases hp : p.1 = key
    · simp [scanList, hp] at h
    · simp only [scanList, hp, if_false] at h
      simp [scanList, hp, ih h]

theorem scanList_assignFirst (key : String) (value : T) (l : Bucket T) (v : T)
    (h : scanList key l = some v) : scanList key (assignFirst key value l) = some value := by
  induction l with
  | nil => simp [scanList] at h
  | cons p ps ih =>
    by_cases hp : p.1 = key
    · simp [scanList, assignFirst, hp]
    · simp only [scanList, hp, if_false] at h
      simp [scanList, assignFirst, hp, ih h]

theorem assignFirst_of_none (key : String) (value : T) (l : Bucket T)
    (h : scanList key l = none) : assignFirst key value l = l := by
  induction l with
  | nil => rfl
  | cons p ps ih =>
    by_cases hp : p.1 = key
    · simp [scanList, hp] at h
    · simp only [scanList, hp, if_false] at h
      simp [assignFirst, hp, ih h]

theorem assignFirst_keys (key : String) (value : T) (l : Bucket T) :
    (assignFirst key value l).map Prod.fst = l.map Prod.fst := by
  induction l with
  | nil => rfl
  | cons p ps ih =>
    by_cases hp : p.1 = key
    · simp [assignFirst, hp]
    · simp [assignFirst, hp, ih]

theorem assignFirst_length (key : String) (value : T) (l : Bucket T) :
    (assignFirst key value l).length = l.length := by
  have h := congrArg List.length (assignFirst_keys key value l)
  simpa using h

theorem ne_nil_of_scanList (key : String) (l : Bucket T) (v : T)
    (h : scanList key l = some v) : l ≠ [] := by
  intro hl
  simp [hl, scanList] at h

theorem mem_of_scanList (key : String) (l : Bucket T) (v : T)
    (h : scanList key l = some v) : (key, v) ∈ l := by
  induction l with
  | nil => simp [scanList] at h
  | cons p ps ih =>
    by_cases hp : p.1 = key
    · simp only [scanList, hp, if_true, Option.some.injEq] at h
      have : p = (key, v) := Prod.ext hp h
      simp [this]
    · simp only [scanList, hp, if_false] at h
      exact List.mem_cons_of_mem _ (ih h)

theorem scanList_none_iff (key : String) (l : Bucket T) :
    scanList key l = none ↔ ∀ p ∈ l, p.1 ≠ key := by
  induction l with
  | nil => simp [scanList]
  | cons p ps ih =>
    by_cases hp : p.1 = key
    · simp [scanList, hp]
    · simp [scanList, hp, ih]

/-! ## The probe loops -/

/-- What the loop of `set` has established when it is left: the list inspected last is
`map[probeIndex a]` for an attempt `a` within the range, every list inspected before it
is non-empty and free of the key, and the last list decides the exit. -/
theorem setLoop_spec (m : HashMap T) (key : String) (s : Nat) :
    ∀ (r inc ss si : Nat), ∃ a, inc ≤ a ∧ a ≤ inc + r ∧
      (setLoop m key s r inc ss si).index = m.probeIndex s a ∧
      (∀ b, inc ≤ b → b < a →
        scanList key (m.listAt (m.probeIndex s b)) = none ∧ m.listAt (m.probeIndex s b) ≠ []) ∧
      (∀ idx v, setLoop m key s r inc ss si = SetExit.found idx v →
        scanList key (m.listAt idx) = some v) ∧
      (∀ idx j, setLoop m key s r inc ss si = SetExit.done idx j →
        scanList key (m.listAt idx) = none ∧ (m.listAt idx = [] ∨ a = inc + r)) := by
  intro r
  induction r with
  | zero =>
    intro inc ss si
    refine ⟨inc, le_refl _, le_refl _, ?_⟩
    rw [setLoop]
    cases hsc : scanList key (m.listAt (m.probeIndex s inc)) with
    | some v =>
      refine ⟨rfl, fun b h1 h2 => absurd h1 (by omega), ?_, ?_⟩
      · intro idx w h
        simp only [SetExit.found.injEq] at h
        rw [← h.1, ← h.2]; exact hsc
      · intro idx j h
        simp at h
    | none =>
      refine ⟨rfl, fun b h1 h2 => absurd h1 (by omega), ?_, ?_⟩
      · intro idx w h
        simp at h
      · intro idx j h
        simp only [SetExit.done.injEq] at h
        rw [← h.1]
        exact ⟨hsc, Or.inr rfl⟩
  | succ r ih =>
    intro inc ss si
    rw [setLoop]
    cases hsc : scanList key (m.listAt (m.probeIndex s inc)) with
    | some v =>
      refine ⟨inc, le_refl _, by omega, rfl, fun b h1 h2 => absurd h1 (by omega), ?_, ?_⟩
      · intro idx w h
        simp only [SetExit.found.injEq] at h
        rw [← h.1, ← h.2]; exact hsc
      · intro idx j h
        simp at h
    | none =>
      by_cases hlen : 0 < (m.listAt (m.probeIndex s inc)).length
      · simp only [hlen, if_true]
        obtain ⟨a, ha1, ha2, hidx, hpre, hf, hd⟩ := ih (inc + 1)
          (if (m.listAt (m.probeIndex s inc)).length ≤ ss
            then ((m.listAt (m.probeIndex s inc)).length, m.probeIndex s inc) else (ss, si)).1
          (if (m.listAt (m.probeIndex s inc)).length ≤ ss
            then ((m.listAt (m.probeIndex s inc)).length, m.probeIndex s inc) else (ss, si)).2
        refine ⟨a, by omega, by omega, hidx, ?_, hf, ?_⟩
        · intro b hb1 hb2
          by_cases hb : b = inc
          · subst hb
            exact ⟨hsc, List.ne_nil_of_length_pos hlen⟩
          · exact hpre b (by omega) hb2
        · intro idx j h
          obtain ⟨h1, h2⟩ := hd idx j h
          exact ⟨h1, h2.imp id (fun h => by omega)⟩
      · simp only [hlen, if_false]
        refine ⟨inc, le_refl _, by omega, rfl, fun b h1 h2 => absurd h1 (by omega), ?_, ?_⟩
        · intro idx w h
          simp at h
        · intro idx j h
          simp only [SetExit.done.injEq] at h
          rw [← h.1]
          refine ⟨hsc, Or.inl ?_⟩
          exact List.eq_nil_of_length_eq_zero (by omega)

/-- The loop of `set` leaves with `found` at the first attempt whose list holds the key,
when every list before it is non-empty. -/
theorem setLoop_found_of (m : HashMap T) (key : String) (s : Nat) (v : T) :
    ∀ (a r inc ss si : Nat), a ≤ r →
      (∀ b, b < a → scanList key (m.listAt (m.probeIndex s (inc + b))) = none ∧
        m.listAt (m.probeIndex s (inc + b)) ≠ []) →
      scanList key (m.listAt (m.probeIndex s (inc + a))) = some v →
      setLoop m key s r inc ss si = SetExit.found (m.probeIndex s (inc + a)) v := by
  intro a
  induction a with
  | zero =>
    intro r inc ss si _ _ hhit
    rw [setLoop]
    simp only [Nat.add_zero] at hhit ⊢
    simp [hhit]
  | succ a ih =>
    intro r inc ss si har hpre hhit
    obtain ⟨r, rfl⟩ : ∃ r0, r = r0 + 1 := ⟨r - 1, by omega⟩
    rw [setLoop]
    have h0 := hpre 0 (by omega)
    simp only [Nat.add_zero] at h0
    have hlen : 0 < (m.listAt (m.probeIndex s inc)).length := List.length_pos.mpr h0.2
    simp only [h0.1, hlen, if_true]
    have := ih r (inc + 1)
      (if (m.listAt (m.probeIndex s inc)).length ≤ ss
        then ((m.listAt (m.probeIndex s inc)).length, m.probeIndex s inc) else (ss, si)).1
      (if (m.listAt (m.probeIndex s inc)).length ≤ ss
        then ((m.listAt (m.probeIndex s inc)).length, m.probeIndex s inc) else (ss, si)).2
      (by omega)
      (fun b hb => by
        have := hpre (b + 1) (by omega)
        rwa [show inc + (b + 1) = inc + 1 + b by omega] at this)
      (by rwa [show inc + (a + 1) = inc + 1 + a by omega] at hhit)
    rw [this, show inc + (a + 1) = inc + 1 + a by omega]

/-- The loop of `get` probes every list `set` probes: once the list the loop of `set` stopped at
holds the key first with value `v`, the loop of `get` returns `v`. -/
theorem getLoop_after_store [Inhabited T] (m m' : HashMap T) (key : String) (s idx : Nat)
    (v : T) (hsz : m'.mapSize = m.mapSize)
    (hself : scanList key (m'.listAt idx) = some v)
    (hne : ∀ j, j ≠ idx → m'.listAt j = m.listAt j) :
    ∀ (r inc ss si n : Nat), r < n → (setLoop m key s r inc ss si).index = idx →
      getLoop m' key s n inc = v := by
  intro r
  induction r with
  | zero =>
    intro inc ss si n hn hidx
    obtain ⟨n, rfl⟩ : ∃ n0, n = n0 + 1 := ⟨n - 1, by omega⟩
    rw [setLoop] at hidx
    have hi : m.probeIndex s inc = idx := by
      cases hsc : scanList key (m.listAt (m.probeIndex s inc)) <;>
        simpa [hsc, SetExit.index] using hidx
    rw [getLoop, probeIndex_congr m m' hsz, hi, hself]
  | succ r ih =>
    intro inc ss si n hn hidx
    obtain ⟨n, rfl⟩ : ∃ n0, n = n0 + 1 := ⟨n - 1, by omega⟩
    rw [getLoop, probeIndex_congr m m' hsz]
    by_cases hi : m.probeIndex s inc = idx
    · rw [hi, hself]
    · rw [hne _ hi]
      rw [setLoop] at hidx
      cases hsc : scanList key (m.listAt (m.probeIndex s inc)) with
      | some w =>
        simp [hsc, SetExit.index] at hidx
        exact absurd hidx hi
      | none =>
        simp only [hsc] at hidx ⊢
        by_cases hlen : 0 < (m.listAt (m.probeIndex s inc)).length
        · simp only [hlen, if_true] at hidx
          exact ih _ _ _ n (by omega) hidx
        · simp only [hlen, if_false, SetExit.index] at hidx
          exact absurd hidx hi

/-- Once the list the loop of `set` stopped at holds the key first with value `v`, a
second run of the loop leaves with `found` there. -/
theorem setLoop_after_store (m m' : HashMap T) (key : String) (s idx : Nat)
    (v : T) (hsz : m'.mapSize = m.mapSize)
    (hself : scanList key (m'.listAt idx) = some v)
    (hne : ∀ j, j ≠ idx → m'.listAt j = m.listAt j) :
    ∀ (r inc ss si ss' si' : Nat), (setLoop m key s r inc ss si).index = idx →
      setLoop m' key s r inc ss' si' = SetExit.found idx v := by
  intro r
  induction r with
  | zero =>
    intro inc ss si ss' si' hidx
    rw [setLoop] at hidx
    have hi : m.probeIndex s inc = idx := by
      cases hsc : scanList key (m.listAt (m.probeIndex s inc)) <;>
        simpa [hsc, SetExit.index] using hidx
    rw [setLoop, probeIndex_congr m m' hsz, hi]
    simp only [hself]
  | succ r ih =>
    intro inc ss si ss' si' hidx
    rw [setLoop, probeIndex_congr m m' hsz]
    by_cases hi : m.probeIndex s inc = idx
    · rw [hi]
      simp only [hself]
    · rw [hne _ hi]
      rw [setLoop] at hidx
      cases hsc : scanList key (m.listAt (m.probeIndex s inc)) with
      | some w =>
        simp [hsc, SetExit.index] at hidx
        exact absurd hidx hi
      | none =>
        simp only [hsc] at hidx ⊢
        by_cases hlen : 0 < (m.listAt (m.probeIndex s inc)).length
        · simp only [hlen, if_true] at hidx ⊢
          exact ih _ _ _ _ _ hidx
        · simp only [hlen, if_false, SetExit.index] at hidx
          exact absurd hidx hi

/-- If the loop of `set` meets the key, the loop of `get` returns the value met. -/
theorem getLoop_of_found [Inhabited T] (m : HashMap T) (key : String) (s : Nat) :
    ∀ (r inc ss si n idx : Nat) (v : T), r < n →
      setLoop m key s r inc ss si = SetExit.found idx v → getLoop m key s n inc = v := by
  intro r
  induction r with
  | zero =>
    intro inc ss si n idx v hn h
    obtain ⟨n, rfl⟩ : ∃ n0, n = n0 + 1 := ⟨n - 1, by omega⟩
    rw [setLoop] at h
    rw [getLoop]
    cases hsc : scanList key (m.listAt (m.probeIndex s inc)) with
    | some w => simp only [hsc, SetExit.found.injEq] at h; exact h.2
    | none => simp [hsc] at h
  | succ r ih =>
    intro inc ss si n idx v hn h
    obtain ⟨n, rfl⟩ : ∃ n0, n = n0 + 1 := ⟨n - 1, by omega⟩
    rw [setLoop] at h
    rw [getLoop]
    cases hsc : scanList key (m.listAt (m.probeIndex s inc)) with
    | some w => simp only [hsc, SetExit.found.injEq] at h; exact h.2
    | none =>
      simp only [hsc] at h ⊢
      by_cases hlen : 0 < (m.listAt (m.probeIndex s inc)).length
      · simp only [hlen, if_true] at h
        exact ih _ _ _ n idx v (by omega) h
      · simp [hlen] at h

/-- If the loop of `set` meets the key, the loop of `remove` resets that very pair. -/
theorem removeLoop_of_found [Inhabited T] (m : HashMap T) (key : String) (s : Nat) :
    ∀ (r inc ss si n idx : Nat) (v : T), r < n →
      setLoop m key s r inc ss si = SetExit.found idx v →
      removeLoop m key s n inc =
        (v, m.storeList idx (assignFirst key default (m.listAt idx))) := by
  intro r
  induction r with
  | zero =>
    intro inc ss si n idx v hn h
    obtain ⟨n, rfl⟩ : ∃ n0, n = n0 + 1 := ⟨n - 1, by omega⟩
    rw [setLoop] at h
    rw [removeLoop]
    cases hsc : scanList key (m.listAt (m.probeIndex s inc)) with
    | some w =>
      simp only [hsc, SetExit.found.injEq] at h
      rw [h.1, h.2]
    | none => simp [hsc] at h
  | succ r ih =>
    intro inc ss si n idx v hn h
    obtain ⟨n, rfl⟩ : ∃ n0, n = n0 + 1 := ⟨n - 1, by omega⟩
    rw [setLoop] at h
    rw [removeLoop]
    cases hsc : scanList key (m.listAt (m.probeIndex s inc)) with
    | some w =>
      simp only [hsc, SetExit.found.injEq] at h
      rw [h.1, h.2]
    | none =>
      simp only [hsc] at h ⊢
      by_cases hlen : 0 < (m.listAt (m.probeIndex s inc)).length
      · simp only [hlen, if_true] at h
        exact ih _ _ _ n idx v (by omega) h
      · simp [hlen] at h

/-- The value `remove` returns is the value `get` returns. -/
theorem removeLoop_fst [Inhabited T] (m : HashMap T) (key : String) (s : Nat) :
    ∀ (n inc : Nat), (removeLoop m key s n inc).1 = getLoop m key s n inc := by
  intro n
  induction n with
  | zero => intro inc; rfl
  | succ n ih =>
    intro inc
    rw [removeLoop, getLoop]
    cases hsc : scanList key (m.listAt (m.probeIndex s inc)) with
    | some w => rfl
    | none => exact ih (inc + 1)

/-- Without the key in any probed list the loop of `get` returns `T()`. -/
theorem getLoop_of_none [Inhabited T] (m : HashMap T) (key : String) (s : Nat) :
    ∀ (n inc : Nat),
      (∀ b, b < n → scanList key (m.listAt (m.probeIndex s (inc + b))) = none) →
      getLoop m key s n inc = default := by
  intro n
  induction n with
  | zero => intro inc _; rfl
  | succ n ih =>
    intro inc h
    rw [getLoop]
    have h0 := h 0 (by omega)
    simp only [Nat.add_zero] at h0
    simp only [h0]
    apply ih
    intro b hb
    have := h (b + 1) (by omega)
    rwa [show inc + (b + 1) = inc + 1 + b by omega] at this

/-- The loop of `remove` changes neither counter. -/
theorem removeLoop_counters [Inhabited T] (m : HashMap T) (key : String) (s : Nat) :
    ∀ (n inc : Nat), (removeLoop m key s n inc).2.itemsInMap = m.itemsInMap ∧
      (removeLoop m key s n inc).2.mapSize = m.mapSize ∧
      (removeLoop m key s n inc).2.map.length = m.map.length := by
  intro n
  induction n with
  | zero => intro inc; exact ⟨rfl, rfl, rfl⟩
  | succ n ih =>
    intro inc
    rw [removeLoop]
    cases hsc : scanList key (m.listAt (m.probeIndex s inc)) with
    | some w => exact ⟨rfl, rfl, storeList_length _ _ _⟩
    | none => exact ih (inc + 1)

/-- The index the loop of `set` stops at lies inside the array. -/
theorem setLoop_index_lt (m : HashMap T) (hwf : m.WF) (h1 : 1 ≤ m.mapSize) (key : String)
    (s r inc ss si : Nat) : (setLoop m key s r inc ss si).index < m.map.length := by
  obtain ⟨a, _, _, hidx, _⟩ := setLoop_spec m key s r inc ss si
  rw [hidx]
  exact probeIndex_lt m hwf h1 s a

/-! ## The operations -/

section Operations

variable [Inhabited T] [DecidableEq T]

theorem set_of_found (m : HashMap T) (key : String) (value : T) (idx : Nat) (v : T)
    (hK : key ≠ "")
    (h : setLoop m key (m.hash key) 5 0 32767 (m.hash key) = SetExit.found idx v) :
    m.set key value = if v ≠ default then (false, m)
      else (true, m.storeList idx (assignFirst key value (m.listAt idx))) := by
  simp only [set, hK, if_false, h]

theorem set_of_done (m : HashMap T) (key : String) (value : T) (idx j : Nat)
    (hK : key ≠ "")
    (h : setLoop m key (m.hash key) 5 0 32767 (m.hash key) = SetExit.done idx j) :
    m.set key value =
      (true, { m.storeList idx (m.listAt idx ++ [(key, value)]) with
        itemsInMap := if m.listAt idx = [] then (m.itemsInMap + 1) % 2 ^ 32
          else m.itemsInMap }) := by
  simp only [set, hK, if_false, h]
  cases hl : m.listAt idx <;> simp

/-- Shape of the table after a successful `set`: one list, the one the loop stopped at,
was written, and it now holds the key first with the new value. -/
theorem set_true_shape (m m' : HashMap T) (hwf : m.WF) (h1 : 1 ≤ m.mapSize)
    (key : String) (value : T) (h : m.set key value = (true, m')) :
    key ≠ "" ∧ m'.mapSize = m.mapSize ∧ m'.map.length = m.map.length ∧
    ∃ idx, (setLoop m key (m.hash key) 5 0 32767 (m.hash key)).index = idx ∧
      idx < m.map.length ∧
      scanList key (m'.listAt idx) = some value ∧
      (∀ j, j ≠ idx → m'.listAt j = m.listAt j) ∧
      ((m'.listAt idx).map Prod.fst = (m.listAt idx).map Prod.fst ∨
        m'.listAt idx = m.listAt idx ++ [(key, value)]) := by
  have hK : key ≠ "" := by
    intro hk
    simp [set, hk] at h
  refine ⟨hK, ?_⟩
  have hlt := setLoop_index_lt m hwf h1 key (m.hash key) 5 0 32767 (m.hash key)
  obtain ⟨a, _, _, _, _, hf, hd⟩ := setLoop_spec m key (m.hash key) 5 0 32767 (m.hash key)
  cases hex : setLoop m key (m.hash key) 5 0 32767 (m.hash key) with
  | found idx v =>
    rw [hex] at hlt
    simp only [SetExit.index] at hlt
    rw [set_of_found m key value idx v hK hex] at h
    by_cases hv : v ≠ default
    · simp [hv] at h
    · simp only [hv, if_false, Prod.mk.injEq, true_and] at h
      subst h
      refine ⟨rfl, storeList_length _ _ _, idx, rfl, hlt, ?_, ?_, ?_⟩
      · rw [listAt_storeList_self m idx _ hlt]
        exact scanList_assignFirst key value _ v (hf idx v hex)
      · intro j hj
        exact listAt_storeList_ne m idx j _ hj
      · left
        rw [listAt_storeList_self m idx _ hlt]
        exact assignFirst_keys key value _
  | done idx j =>
    rw [hex] at hlt
    simp only [SetExit.index] at hlt
    rw [set_of_done m key value idx j hK hex] at h
    simp only [Prod.mk.injEq, true_and] at h
    subst h
    have hself : ({ m.storeList idx (m.listAt idx ++ [(key, value)]) with
        itemsInMap := if m.listAt idx = [] then (m.itemsInMap + 1) % 2 ^ 32
          else m.itemsInMap } : HashMap T).listAt idx = m.listAt idx ++ [(key, value)] :=
      listAt_storeList_self m idx _ hlt
    refine ⟨rfl, storeList_length _ _ _, idx, rfl, hlt, ?_, ?_, ?_⟩
    · rw [hself]
      exact scanList_append_of_none key value _ (hd idx j hex).1
    · intro i hi
      exact listAt_storeList_ne m idx i _ hi
    · right
      exact hself

/-- A successful `set` keeps the class invariant. -/
theorem set_true_WF (m m' : HashMap T) (hwf : m.WF) (h1 : 1 ≤ m.mapSize)
    (key : String) (value : T) (h : m.set key value = (true, m')) : m'.WF := by
  obtain ⟨_, hsz, hlen, _⟩ := set_true_shape m m' hwf h1 key value h
  unfold WF at hwf ⊢
  rw [hlen, hsz, hwf]

/-- After a successful `set` the key is read back. -/
theorem get_after_set (m m' : HashMap T) (hwf : m.WF) (h1 : 1 ≤ m.mapSize)
    (key : String) (value : T) (h : m.set key value = (true, m')) :
    m'.get key = value := by
  obtain ⟨hK, hsz, _, idx, hidx, _, hself, hne, _⟩ := set_true_shape m m' hwf h1 key value h
  simp only [get, hK, if_false]
  rw [hash_congr m m' hsz]
  exact getLoop_after_store m m' key (m.hash key) idx value hsz hself hne 5 0 32767
    (m.hash key) 7 (by omega) hidx

/-- After a successful `set` the loop of `set` meets the new pair. -/
theorem setLoop_after_set (m m' : HashMap T) (hwf : m.WF) (h1 : 1 ≤ m.mapSize)
    (key : String) (value : T) (h : m.set key value = (true, m')) :
    ∃ idx, idx < m'.map.length ∧
      setLoop m' key (m'.hash key) 5 0 32767 (m'.hash key) = SetExit.found idx value := by
  obtain ⟨hK, hsz, hlen, idx, hidx, hlt, hself, hne, _⟩ :=
    set_true_shape m m' hwf h1 key value h
  refine ⟨idx, by omega, ?_⟩
  rw [hash_congr m m' hsz]
  exact setLoop_after_store m m' key (m.hash key) idx value hsz hself hne 5 0 32767
    (m.hash key) 32767 (m.hash key) hidx

omit [DecidableEq T] in
/-- When the loop of `set` meets the key, `remove` returns the value met and resets it,
after which both `get` and the loop of `set` see the reset pair. -/
theorem remove_of_found (m : HashMap T) (key : String) (idx : Nat) (v : T)
    (hK : key ≠ "") (hlt : idx < m.map.length)
    (h : setLoop m key (m.hash key) 5 0 32767 (m.hash key) = SetExit.found idx v) :
    m.remove key = (v, m.storeList idx (assignFirst key default (m.listAt idx))) ∧
    (m.remove key).2.get key = default ∧
    setLoop (m.remove key).2 key ((m.remove key).2.hash key) 5 0 32767
      ((m.remove key).2.hash key) = SetExit.found idx default := by
  have hrem : m.remove key = (v, m.storeList idx (assignFirst key default (m.listAt idx))) := by
    simp only [remove, hK, if_false]
    exact removeLoop_of_found m key (m.hash key) 5 0 32767 (m.hash key) 7 idx v (by omega) h
  obtain ⟨_, _, _, _, _, hf, _⟩ := setLoop_spec m key (m.hash key) 5 0 32767 (m.hash key)
  have hself : scanList key ((m.storeList idx (assignFirst key default (m.listAt idx))).listAt idx)
      = some default := by
    rw [listAt_storeList_self m idx _ hlt]
    exact scanList_assignFirst key default _ v (hf idx v h)
  have hne : ∀ j, j ≠ idx →
      (m.storeList idx (assignFirst key default (m.listAt idx))).listAt j = m.listAt j :=
    fun j hj => listAt_storeList_ne m idx j _ hj
  have hidx : (setLoop m key (m.hash key) 5 0 32767 (m.hash key)).index = idx := by
    rw [h]; rfl
  refine ⟨hrem, ?_, ?_⟩
  · rw [hrem]
    simp only [get, hK, if_false]
    rw [hash_congr m _ (storeList_mapSize m idx _)]
    exact getLoop_after_store m (m.storeList idx (assignFirst key default (m.listAt idx)))
      key (m.hash key) idx default rfl hself hne 5 0 32767 (m.hash key) 7 (by omega) hidx
  · rw [hrem]
    simp only
    rw [hash_congr m _ (storeList_mapSize m idx _)]
    exact setLoop_after_store m (m.storeList idx (assignFirst key default (m.listAt idx)))
      key (m.hash key) idx default rfl hself hne 5 0 32767 (m.hash key) 32767 (m.hash key) hidx

end Operations

theorem mem_map_of_mem_listAt (m : HashMap T) (i : Nat) (p : String × T)
    (hp : p ∈ m.listAt i) : m.listAt i ∈ m.map := by
  unfold listAt at hp ⊢
  by_cases hi : i < m.map.length
  · rw [List.getD_eq_getElem _ _ hi]
    exact List.getElem_mem hi
  · rw [List.getD_eq_default _ _ (by omega)] at hp
    simp at hp

theorem scanList_eq_find (key : String) (l : Bucket T) :
    scanList key l = (l.find? (fun p => decide (p.1 = key))).map Prod.snd := by
  induction l with
  | nil => rfl
  | cons p ps ih =>
    by_cases hp : p.1 = key
    · simp [scanList, hp]
    · simp [scanList, hp, ih]

/-- The loop of `get` returns the value of the first pair with the key in the
concatenation of the probed lists. -/
theorem getLoop_eq_find [Inhabited T] (m : HashMap T) (key : String) (s : Nat) :
    ∀ (n inc : Nat), getLoop m key s n inc =
      match (((List.range' inc n).map
          (fun a => m.listAt ((s + a * a) % m.mapSize))).flatten).find?
            (fun p => decide (p.1 = key)) with
      | some p => p.2
      | none => default := by
  intro n
  induction n with
  | zero => intro inc; rfl
  | succ n ih =>
    intro inc
    rw [getLoop, List.range'_succ, List.map_cons, List.flatten_cons, List.find?_append,
      scanList_eq_find]
    unfold probeIndex
    cases hf : (m.listAt ((s + inc * inc) % m.mapSize)).find? (fun p => decide (p.1 = key)) with
    | some p => rfl
    | none =>
      simp only [Option.map_none', Option.none_or]
      exact ih (inc + 1)

theorem assignFirst_getElem?_firstPos (key : String) (value : T) (l : Bucket T) (v : T)
    (h : scanList key l = some v) :
    (assignFirst key value l)[firstPos key l]? = some (key, value) := by
  induction l with
  | nil => simp [scanList] at h
  | cons p ps ih =>
    by_cases hp : p.1 = key
    · simp [assignFirst, firstPos, hp]
    · simp only [scanList, hp, if_false] at h
      simp [assignFirst, firstPos, hp, ih h]

theorem assignFirst_getElem?_ne (key : String) (value : T) (l : Bucket T) :
    ∀ j, j ≠ firstPos key l → (assignFirst key value l)[j]? = l[j]? := by
  induction l with
  | nil => intro j _; rfl
  | cons p ps ih =>
    intro j hj
    by_cases hp : p.1 = key
    · simp only [firstPos, hp, if_true] at hj
      obtain ⟨j, rfl⟩ : ∃ j0, j = j0 + 1 := ⟨j - 1, by omega⟩
      simp [assignFirst, hp]
    · simp only [firstPos, hp, if_false] at hj
      cases j with
      | zero => simp [assignFirst, hp]
      | succ j =>
        simp only [assignFirst, hp, if_false, List.getElem?_cons_succ]
        exact ih j (by omega)

theorem map_set_of_eq {α β : Type} (f : α → β) (l : List α) (d : α) (i : Nat) (b : α)
    (h : f b = f (l.getD i d)) : (l.set i b).map f = l.map f := by
  induction l generalizing i with
  | nil => rfl
  | cons x xs ih =>
    cases i with
    | zero =>
      simp only [List.set_cons_zero, List.map_cons]
      simp only [List.getD_cons_zero] at h
      rw [h]
    | succ i =>
      simp only [List.set_cons_succ, List.map_cons]
      simp only [List.getD_cons_succ] at h
      rw [ih i h]

/-- Resetting or assigning the value of a pair changes no list length and no key. -/
theorem storeList_assignFirst_keys (m : HashMap T) (idx : Nat) (key : String) (value : T) :
    (m.storeList idx (assignFirst key value (m.listAt idx))).map.map (List.map Prod.fst)
      = m.map.map (List.map Prod.fst) := by
  unfold storeList listAt
  exact map_set_of_eq (List.map Prod.fst) m.map [] idx _ (assignFirst_keys key value _)

theorem numEntries_eq_of_keys (m m' : HashMap T)
    (h : m'.map.map (List.map Prod.fst) = m.map.map (List.map Prod.fst)) :
    m'.numEntries = m.numEntries := by
  have h2 := congrArg (fun l => (l.map List.length).sum) h
  simpa [numEntries, List.map_map, Function.comp_def] using h2

theorem storeList_WF (m : HashMap T) (hwf : m.WF) (i : Nat) (b : Bucket T) :
    (m.storeList i b).WF := by
  unfold WF at hwf ⊢
  rw [storeList_length, storeList_mapSize, hwf]

/-- After any call `set key value` with a non-empty key the loop of `set` meets the key. -/
theorem setLoop_found_after_call [Inhabited T] [DecidableEq T] (m : HashMap T) (hwf : m.WF)
    (h1 : 1 ≤ m.mapSize) (key : String) (hK : key ≠ "") (value : T) :
    (m.set key value).2.WF ∧ (m.set key value).2.mapSize = m.mapSize ∧
      ∃ idx v, idx < (m.set key value).2.map.length ∧
        setLoop (m.set key value).2 key ((m.set key value).2.hash key) 5 0 32767
          ((m.set key value).2.hash key) = SetExit.found idx v := by
  cases hres : (m.set key value).1 with
  | true =>
    have heq : m.set key value = (true, (m.set key value).2) := Prod.ext hres rfl
    obtain ⟨_, hsz, _⟩ := set_true_shape m _ hwf h1 key value heq
    obtain ⟨idx, hlt, hloop⟩ := setLoop_after_set m _ hwf h1 key value heq
    exact ⟨set_true_WF m _ hwf h1 key value heq, hsz, idx, value, hlt, hloop⟩
  | false =>
    have hlt := setLoop_index_lt m hwf h1 key (m.hash key) 5 0 32767 (m.hash key)
    cases hex : setLoop m key (m.hash key) 5 0 32767 (m.hash key) with
    | found idx v =>
      rw [hex] at hlt
      simp only [SetExit.index] at hlt
      have hs := set_of_found m key value idx v hK hex
      by_cases hv : v ≠ default
      · rw [if_pos hv] at hs
        rw [hs]
        exact ⟨hwf, rfl, idx, v, hlt, hex⟩
      · rw [if_neg hv] at hs
        rw [hs] at hres
        simp at hres
    | done idx j =>
      rw [set_of_done m key value idx j hK hex] at hres
      simp at hres

/-- The sequence `set K V1; remove K; set K V2`: the last call assigns `V2` to the pair
that the first call left for `K`; no pair is added. -/
theorem set_remove_set [Inhabited T] [DecidableEq T] (m : HashMap T) (hwf : m.WF)
    (h1 : 1 ≤ m.mapSize) (key : String) (hK : key ≠ "") (v1 v2 : T) :
    ((((m.set key v1).2.remove key).2.set key v2).1 = true ∧
      (((m.set key v1).2.remove key).2.set key v2).2.get key = v2) ∧
      (((m.set key v1).2.remove key).2.set key v2).2.map.map (List.map Prod.fst)
        = (m.set key v1).2.map.map (List.map Prod.fst) := by
  obtain ⟨hwf1, hsz1, idx, v, hlt, hloop⟩ := setLoop_found_after_call m hwf h1 key hK v1
  generalize (m.set key v1).2 = m1 at hwf1 hsz1 hlt hloop ⊢
  obtain ⟨hrem, _, hloop2⟩ := remove_of_found m1 key idx v hK hlt hloop
  rw [hrem] at hloop2 ⊢
  simp only at hloop2 ⊢
  have hwf2 : (m1.storeList idx (assignFirst key default (m1.listAt idx))).WF :=
    storeList_WF m1 hwf1 idx _
  have h12 : 1 ≤ (m1.storeList idx (assignFirst key default (m1.listAt idx))).mapSize := by
    rw [storeList_mapSize, hsz1]; exact h1
  have hkeys2 := storeList_assignFirst_keys m1 idx key default
  generalize m1.storeList idx (assignFirst key default (m1.listAt idx)) = m2
    at hloop2 hwf2 h12 hkeys2 ⊢
  have hs := set_of_found m2 key v2 idx default hK hloop2
  simp only [ne_eq, not_true_eq_false, if_false] at hs
  refine ⟨⟨by rw [hs], get_after_set m2 _ hwf2 h12 key v2 (Prod.ext (by rw [hs]) rfl)⟩, ?_⟩
  rw [hs]
  simp only
  rw [storeList_assignFirst_keys]
  exact hkeys2

/-! ## Invariants of reachable tables -/

theorem listAt_keys_of_map_keys (m m' : HashMap T)
    (h : m'.map.map (List.map Prod.fst) = m.map.map (List.map Prod.fst)) (i : Nat) :
    (m'.listAt i).map Prod.fst = (m.listAt i).map Prod.fst := by
  have h2 := congrArg (fun l => l[i]?) h
  simp only [List.getElem?_map] at h2
  unfold listAt
  rw [List.getD_eq_getElem?_getD, List.getD_eq_getElem?_getD]
  cases h1 : m'.map[i]? <;> cases h3 : m.map[i]? <;> simp_all

theorem length_of_map_keys (m m' : HashMap T)
    (h : m'.map.map (List.map Prod.fst) = m.map.map (List.map Prod.fst)) :
    m'.map.length = m.map.length := by
  have h2 := congrArg List.length h
  simpa using h2

/-- The two ways a call of `set` can end: either no list changes its keys and the
counters stay (the call failed, or it assigned to an existing pair), or the pair is
appended to the list at an attempt `a ≤ 5`, all lists probed before being non-empty. -/
theorem set_cases [Inhabited T] [DecidableEq T] (m : HashMap T) (key : String) (value : T) :
    ((m.set key value).2.map.map (List.map Prod.fst) = m.map.map (List.map Prod.fst) ∧
      (m.set key value).2.itemsInMap = m.itemsInMap ∧
      (m.set key value).2.mapSize = m.mapSize) ∨
    (key ≠ "" ∧ ∃ a, a ≤ 5 ∧
      (∀ b, b < a → scanList key (m.listAt (m.probeIndex (m.hash key) b)) = none ∧
        m.listAt (m.probeIndex (m.hash key) b) ≠ []) ∧
      scanList key (m.listAt (m.probeIndex (m.hash key) a)) = none ∧
      (m.listAt (m.probeIndex (m.hash key) a) = [] ∨ a = 5) ∧
      m.set key value = (true,
        { m.storeList (m.probeIndex (m.hash key) a)
            (m.listAt (m.probeIndex (m.hash key) a) ++ [(key, value)]) with
          itemsInMap := if m.listAt (m.probeIndex (m.hash key) a) = []
            then (m.itemsInMap + 1) % 2 ^ 32 else m.itemsInMap })) := by
  by_cases hK : key = ""
  · left
    simp [set, hK]
  · obtain ⟨a, _, ha, hidx, hpre, _, hd⟩ :=
      setLoop_spec m key (m.hash key) 5 0 32767 (m.hash key)
    cases hex : setLoop m key (m.hash key) 5 0 32767 (m.hash key) with
    | found idx v =>
      left
      rw [set_of_found m key value idx v hK hex]
      by_cases hv : v ≠ default
      · rw [if_pos hv]
        exact ⟨rfl, rfl, rfl⟩
      · rw [if_neg hv]
        exact ⟨storeList_assignFirst_keys m idx key value, rfl, rfl⟩
    | done idx j =>
      right
      rw [hex] at hidx
      simp only [SetExit.index] at hidx
      obtain ⟨hnone, hlast⟩ := hd idx j hex
      rw [hidx] at hnone hlast
      refine ⟨hK, a, by omega, fun b hb => hpre b (Nat.zero_le b) hb, hnone,
        hlast.imp id (fun h => by omega), ?_⟩
      rw [set_of_done m key value idx j hK hex, hidx]

/-- A call of `remove` changes no key and no counter. -/
theorem remove_keys [Inhabited T] (m : HashMap T) (key : String) :
    (m.remove key).2.map.map (List.map Prod.fst) = m.map.map (List.map Prod.fst) ∧
      (m.remove key).2.itemsInMap = m.itemsInMap ∧
      (m.remove key).2.mapSize = m.mapSize := by
  have hloop : ∀ (n inc : Nat),
      (removeLoop m key (m.hash key) n inc).2.map.map (List.map Prod.fst)
        = m.map.map (List.map Prod.fst) := by
    intro n
    induction n with
    | zero => intro inc; rfl
    | succ n ih =>
      intro inc
      rw [removeLoop]
      cases hsc : scanList key (m.listAt (m.probeIndex (m.hash key) inc)) with
      | some w => exact storeList_assignFirst_keys m _ key default
      | none => exact ih (inc + 1)
  by_cases hK : key = ""
  · simp [remove, hK]
  · simp only [remove, hK, if_false]
    exact ⟨hloop 7 0, (removeLoop_counters m key (m.hash key) 7 0).1,
      (removeLoop_counters m key (m.hash key) 7 0).2.1⟩

theorem placed_of_keys (m m' : HashMap T) (hp : m.Placed)
    (hkeys : m'.map.map (List.map Prod.fst) = m.map.map (List.map Prod.fst))
    (hsz : m'.mapSize = m.mapSize) : m'.Placed := by
  intro i p hpm
  have hk := listAt_keys_of_map_keys m m' hkeys
  have hmem : p.1 ∈ (m.listAt i).map Prod.fst := by
    rw [← hk i]
    exact List.mem_map_of_mem _ hpm
  obtain ⟨q, hq, hq1⟩ := List.mem_map.mp hmem
  obtain ⟨a, ha, hidx, hpre⟩ := hp i q hq
  rw [hq1] at hidx hpre
  refine ⟨a, ha, ?_, ?_⟩
  · rw [hash_congr m m' hsz, probeIndex_congr m m' hsz]
    exact hidx
  · intro b hb hnil
    rw [hash_congr m m' hsz, probeIndex_congr m m' hsz] at hnil
    apply hpre b hb
    have := hk (m.probeIndex (m.hash p.1) b)
    rw [hnil] at this
    simpa using this.symm

/-- The invariants `WF`, `1 ≤ mapSize` and `Placed` survive every call. -/
theorem step_placed [Inhabited T] [DecidableEq T] (m : HashMap T) (hwf : m.WF)
    (h1 : 1 ≤ m.mapSize) (hp : m.Placed) (op : Op T) :
    (m.step op).WF ∧ (m.step op).mapSize = m.mapSize ∧ (m.step op).Placed := by
  have hsame : ∀ m' : HashMap T,
      m'.map.map (List.map Prod.fst) = m.map.map (List.map Prod.fst) →
      m'.mapSize = m.mapSize → m'.WF ∧ m'.mapSize = m.mapSize ∧ m'.Placed := by
    intro m' hkeys hsz
    refine ⟨?_, hsz, placed_of_keys m m' hp hkeys hsz⟩
    unfold WF at hwf ⊢
    rw [length_of_map_keys m m' hkeys, hsz, hwf]
  cases op with
  | get key => exact ⟨hwf, rfl, hp⟩
  | remove key =>
    obtain ⟨hkeys, _, hsz⟩ := remove_keys m key
    exact hsame _ hkeys hsz
  | set key value =>
    simp only [step]
    rcases set_cases m key value with ⟨hkeys, _, hsz⟩ | ⟨hK, a, ha, hpre, hnone, _, hset⟩
    · exact hsame _ hkeys hsz
    · rw [hset]
      simp only
      have hlt := probeIndex_lt m hwf h1 (m.hash key) a
      generalize hidx : m.probeIndex (m.hash key) a = idx at hlt hnone hset ⊢
      have hself : ∀ (c : Nat), ({ m.storeList idx (m.listAt idx ++ [(key, value)]) with
          itemsInMap := c } : HashMap T).listAt idx = m.listAt idx ++ [(key, value)] :=
        fun c => listAt_storeList_self m idx _ hlt
      have hne : ∀ (c j : Nat), j ≠ idx →
          ({ m.storeList idx (m.listAt idx ++ [(key, value)]) with
            itemsInMap := c } : HashMap T).listAt j = m.listAt j :=
        fun c j hj => listAt_storeList_ne m idx j _ hj
      have hmono : ∀ (c j : Nat), m.listAt j ≠ [] →
          ({ m.storeList idx (m.listAt idx ++ [(key, value)]) with
            itemsInMap := c } : HashMap T).listAt j ≠ [] := by
        intro c j hj
        by_cases hji : j = idx
        · rw [hji, hself c]; simp
        · rw [hne c j hji]; exact hj
      refine ⟨?_, rfl, ?_⟩
      · exact storeList_WF m hwf idx _
      · intro i p hpm
        have key_case : p ∈ m.listAt i ∨ (p.1 = key ∧ i = idx) := by
          by_cases hi : i = idx
          · rw [hi, hself] at hpm
            rcases List.mem_append.mp hpm with h | h
            · left; rw [hi]; exact h
            · right
              simp only [List.mem_singleton] at h
              exact ⟨by rw [h], hi⟩
          · rw [hne _ i hi] at hpm
            exact Or.inl hpm
        rcases key_case with hold | ⟨hpk, hi⟩
        · obtain ⟨a', ha', hidx', hpre'⟩ := hp i p hold
          exact ⟨a', ha', hidx', fun b hb => hmono _ _ (hpre' b hb)⟩
        · refine ⟨a, ha, ?_, ?_⟩
          · rw [hpk, hi]; exact hidx
          · intro b hb
            rw [hpk]
            exact hmono _ _ (hpre b hb).2

theorem new_placed (T : Type) (size : Nat) :
    (HashMap.new T size).WF ∧ (HashMap.new T size).mapSize = size ∧
      (HashMap.new T size).Placed := by
  refine ⟨by simp [WF, HashMap.new], rfl, ?_⟩
  intro i p hp
  have : (HashMap.new T size).listAt i = [] := by
    unfold listAt HashMap.new
    simp only [List.getD_eq_getElem?_getD]
    cases h : (List.replicate size ([] : Bucket T))[i]? with
    | none => rfl
    | some b =>
      have := List.getElem?_mem h
      rw [List.mem_replicate] at this
      simp [this.2]
  rw [this] at hp
  simp at hp

theorem run_placed [Inhabited T] [DecidableEq T] (ops : List (Op T)) :
    ∀ (m : HashMap T), m.WF → 1 ≤ m.mapSize → m.Placed →
      (m.run ops).WF ∧ (m.run ops).mapSize = m.mapSize ∧ (m.run ops).Placed := by
  induction ops with
  | nil => intro m hwf _ hp; exact ⟨hwf, rfl, hp⟩
  | cons op ops ih =>
    intro m hwf h1 hp
    obtain ⟨hwf', hsz', hp'⟩ := step_placed m hwf h1 hp op
    obtain ⟨h2, h3, h4⟩ := ih (m.step op) hwf' (by omega) hp'
    exact ⟨h2, by rw [← hsz']; exact h3, h4⟩

/-- In a table satisfying `Placed`, `set` fails exactly on the empty key and on a key
for which `get` returns a non-default value. -/
theorem set_false_iff_of_placed [Inhabited T] [DecidableEq T] (m : HashMap T)
    (hp : m.Placed) (key : String) (value : T) :
    (m.set key value).1 = false ↔ (key = "" ∨ m.get key ≠ default) := by
  by_cases hK : key = ""
  · simp [set, hK]
  · obtain ⟨a, _, ha, hidx, hpre, _, hd⟩ :=
      setLoop_spec m key (m.hash key) 5 0 32767 (m.hash key)
    cases hex : setLoop m key (m.hash key) 5 0 32767 (m.hash key) with
    | found idx v =>
      have hget : m.get key = v := by
        simp only [get, hK, if_false]
        exact getLoop_of_found m key (m.hash key) 5 0 32767 (m.hash key) 7 idx v
          (by omega) hex
      rw [set_of_found m key value idx v hK hex, hget]
      by_cases hv : v = default
      · simp [hv, hK]
      · simp [hv, hK]
    | done idx j =>
      rw [hex] at hidx
      simp only [SetExit.index] at hidx
      obtain ⟨hnone, hlast⟩ := hd idx j hex
      rw [hidx] at hnone hlast
      have hget : m.get key = default := by
        simp only [get, hK, if_false]
        apply getLoop_of_none
        intro g _
        rw [Nat.zero_add]
        cases hsc : scanList key (m.listAt (m.probeIndex (m.hash key) g)) with
        | none => rfl
        | some w =>
          exfalso
          obtain ⟨a', ha', hidx', hpre'⟩ := hp _ _ (mem_of_scanList key _ w hsc)
          simp only at hidx' hpre'
          have hsome : scanList key (m.listAt (m.probeIndex (m.hash key) a')) = some w := by
            rw [hidx']; exact hsc
          have hlt : a < a' := by
            by_contra hcon
            rcases Nat.lt_or_eq_of_le (Nat.le_of_not_lt hcon) with h | h
            · rw [(hpre a' (Nat.zero_le _) h).1] at hsome
              simp at hsome
            · rw [h, hnone] at hsome
              simp at hsome
          rcases hlast with h | h
          · exact hpre' a hlt h
          · omega
      rw [set_of_done m key value idx j hK hex, hget]
      simp [hK]

theorem nonEmptyLists_le (m : HashMap T) : m.nonEmptyLists ≤ m.map.length :=
  List.countP_le_length _

theorem nonEmptyLists_of_keys (m m' : HashMap T)
    (hkeys : m'.map.map (List.map Prod.fst) = m.map.map (List.map Prod.fst)) :
    m'.nonEmptyLists = m.nonEmptyLists := by
  have hfun : ((fun b : List String => !b.isEmpty) ∘ List.map (Prod.fst : String × T → String))
      = (fun b : Bucket T => !b.isEmpty) := by
    funext b
    cases b <;> rfl
  have h := congrArg (List.countP (fun b : List String => !b.isEmpty)) hkeys
  rw [List.countP_map, List.countP_map, hfun] at h
  exact h

theorem nonEmptyLists_append [DecidableEq T] (m : HashMap T) (idx : Nat) (x : String × T)
    (c : Nat) (hlt : idx < m.map.length) :
    ({ m.storeList idx (m.listAt idx ++ [x]) with itemsInMap := c } : HashMap T).nonEmptyLists
      = m.nonEmptyLists + (if m.listAt idx = [] then 1 else 0) := by
  have hget : m.listAt idx = m.map[idx] := by
    unfold listAt
    exact List.getD_eq_getElem _ _ hlt
  have hpos : 0 < (m.map.countP (fun b => !b.isEmpty)) ∨ m.map[idx] = [] := by
    by_cases hnil : m.map[idx] = []
    · exact Or.inr hnil
    · left
      apply List.countP_pos_iff.mpr
      refine ⟨m.map[idx], List.getElem_mem hlt, ?_⟩
      cases h : m.map[idx] with
      | nil => exact absurd h hnil
      | cons y ys => rfl
  unfold nonEmptyLists storeList
  simp only
  rw [List.countP_set _ _ _ _ hlt, hget]
  cases h : m.map[idx] with
  | nil => simp
  | cons y ys =>
    have hp : 0 < m.map.countP (fun b => !b.isEmpty) :=
      hpos.resolve_right (by rw [h]; simp)
    simp
    omega

/-- The counter `itemsInMap` keeps counting the non-empty lists across every call. -/
theorem step_counted [Inhabited T] [DecidableEq T] (m : HashMap T) (hwf : m.WF)
    (h1 : 1 ≤ m.mapSize) (h32 : m.mapSize < 2 ^ 32)
    (hc : m.itemsInMap = m.nonEmptyLists) (op : Op T) :
    (m.step op).itemsInMap = (m.step op).nonEmptyLists := by
  cases op with
  | get key => exact hc
  | remove key =>
    obtain ⟨hkeys, hitems, _⟩ := remove_keys m key
    simp only [step]
    rw [hitems, nonEmptyLists_of_keys m _ hkeys, hc]
  | set key value =>
    simp only [step]
    rcases set_cases m key value with ⟨hkeys, hitems, _⟩ | ⟨_, a, _, _, _, _, hset⟩
    · rw [hitems, nonEmptyLists_of_keys m _ hkeys, hc]
    · rw [hset]
      simp only
      have hlt := probeIndex_lt m hwf h1 (m.hash key) a
      rw [nonEmptyLists_append m _ (key, value) _ hlt]
      by_cases hnil : m.listAt (m.probeIndex (m.hash key) a) = []
      · simp only [hnil, if_true]
        have hle := nonEmptyLists_le
          ({ m.storeList (m.probeIndex (m.hash key) a)
              (m.listAt (m.probeIndex (m.hash key) a) ++ [(key, value)]) with
            itemsInMap := 0 } : HashMap T)
        rw [nonEmptyLists_append m _ (key, value) _ hlt] at hle
        simp only [hnil, if_true] at hle
        rw [storeList_length, hwf] at hle
        rw [hc]
        exact Nat.mod_eq_of_lt (by omega)
      · simp only [hnil, if_false]
        exact hc

theorem run_counted [Inhabited T] [DecidableEq T] (ops : List (Op T)) :
    ∀ (m : HashMap T), m.WF → 1 ≤ m.mapSize → m.mapSize < 2 ^ 32 → m.Placed →
      m.itemsInMap = m.nonEmptyLists →
      (m.run ops).itemsInMap = (m.run ops).nonEmptyLists := by
  induction ops with
  | nil => intro m _ _ _ _ hc; exact hc
  | cons op ops ih =>
    intro m hwf h1 h32 hp hc
    obtain ⟨hwf', hsz', hp'⟩ := step_placed m hwf h1 hp op
    exact ih (m.step op) hwf' (by omega) (by omega) hp' (step_counted m hwf h1 h32 hc op)

theorem setAll_eq_run [Inhabited T] [DecidableEq T] (kvs : List (String × T)) :
    ∀ (m : HashMap T), m.setAll kvs = m.run (kvs.map (fun kv => Op.set kv.1 kv.2)) := by
  induction kvs with
  | nil => intro m; rfl
  | cons kv rest ih =>
    intro m
    rw [setAll, ih]
    rfl

/-- A successful `set` that lands in a previously empty list raises the number of
non-empty lists by one. -/
theorem nonEmptyLists_of_landsInEmpty [Inhabited T] [DecidableEq T] (m : HashMap T)
    (hwf : m.WF) (h1 : 1 ≤ m.mapSize) (key : String) (value : T)
    (hl : m.LandsInEmpty key value) :
    (m.set key value).2.nonEmptyLists = m.nonEmptyLists + 1 := by
  obtain ⟨_, i, _, hempty, hnew⟩ := hl
  rcases set_cases m key value with ⟨hkeys, _, _⟩ | ⟨_, a, _, _, _, _, hset⟩
  · exfalso
    have hk := listAt_keys_of_map_keys m _ hkeys i
    rw [hempty, hnew] at hk
    simp at hk
  · have hlt := probeIndex_lt m hwf h1 (m.hash key) a
    rw [hset] at hnew ⊢
    simp only at hnew ⊢
    rw [nonEmptyLists_append m _ (key, value) _ hlt]
    by_cases hi : i = m.probeIndex (m.hash key) a
    · rw [← hi, hempty]
      simp
    · exfalso
      have hsame : ({ m.storeList (m.probeIndex (m.hash key) a)
            (m.listAt (m.probeIndex (m.hash key) a) ++ [(key, value)]) with
          itemsInMap := if m.listAt (m.probeIndex (m.hash key) a) = []
            then (m.itemsInMap + 1) % 2 ^ 32 else m.itemsInMap } : HashMap T).listAt i
          = m.listAt i := listAt_storeList_ne m _ i _ hi
      rw [hsame, hempty] at hnew
      simp at hnew

/-- After a run of insertions that each land in a previously empty list, `itemsInMap`
has grown by their number. -/
theorem setAll_itemsInMap [Inhabited T] [DecidableEq T] (kvs : List (String × T)) :
    ∀ (m : HashMap T), m.WF → 1 ≤ m.mapSize → m.mapSize < 2 ^ 32 → m.Placed →
      m.itemsInMap = m.nonEmptyLists → m.AllLandInEmpty kvs →
      (m.setAll kvs).itemsInMap = m.itemsInMap + kvs.length := by
  induction kvs with
  | nil => intro m _ _ _ _ _ _; rfl
  | cons kv rest ih =>
    intro m hwf h1 h32 hp hc hall
    obtain ⟨hland, hrest⟩ := hall
    obtain ⟨hwf', hsz', hp'⟩ := step_placed m hwf h1 hp (Op.set kv.1 kv.2)
    have hc' := step_counted m hwf h1 h32 hc (Op.set kv.1 kv.2)
    simp only [step] at hwf' hsz' hp' hc'
    have hnum := nonEmptyLists_of_landsInEmpty m hwf h1 kv.1 kv.2 hland
    rw [setAll, ih _ hwf' (by omega) (by omega) hp' hc' hrest, hc', hnum, hc,
      List.length_cons]
    omega

/-! ## Other keys are not disturbed -/

theorem listAt_storeList (m : HashMap T) (i j : Nat) (b : Bucket T) :
    (m.storeList i b).listAt j = if j = i ∧ i < m.map.length then b else m.listAt j := by
  by_cases hj : j = i
  · subst hj
    by_cases hlt : j < m.map.length
    · simp only [hlt, and_self, if_true]
      exact listAt_storeList_self m j b hlt
    · simp only [hlt, and_false, if_false]
      unfold storeList listAt
      simp only
      rw [List.getD_eq_default _ _ (by simp; omega), List.getD_eq_default _ _ (by omega)]
  · simp only [hj, false_and, if_false]
    exact listAt_storeList_ne m i j b hj

theorem scanList_assignFirst_ne (key other : String) (value : T) (l : Bucket T)
    (h : key ≠ other) : scanList key (assignFirst other value l) = scanList key l := by
  induction l with
  | nil => rfl
  | cons p ps ih =>
    by_cases hp : p.1 = other
    · have hk : ¬ p.1 = key := fun hpk => h (hpk.symm.trans hp)
      simp [assignFirst, scanList, hp, hk, Ne.symm h]
    · rw [assignFirst, if_neg hp, scanList, scanList, ih]

theorem scanList_append_ne (key other : String) (value : T) (l : Bucket T)
    (h : key ≠ other) : scanList key (l ++ [(other, value)]) = scanList key l := by
  induction l with
  | nil => simp [scanList, Ne.symm h]
  | cons p ps ih =>
    by_cases hk : p.1 = key
    · simp [scanList, hk]
    · simp [scanList, hk, ih]

theorem getLoop_congr [Inhabited T] (m m' : HashMap T) (key : String) (s : Nat)
    (hsz : m'.mapSize = m.mapSize)
    (hscan : ∀ i, scanList key (m'.listAt i) = scanList key (m.listAt i)) :
    ∀ (n inc : Nat), getLoop m' key s n inc = getLoop m key s n inc := by
  intro n
  induction n with
  | zero => intro inc; rfl
  | succ n ih =>
    intro inc
    rw [getLoop, getLoop, probeIndex_congr m m' hsz, hscan, ih]

theorem get_congr [Inhabited T] (m m' : HashMap T) (key : String)
    (hsz : m'.mapSize = m.mapSize)
    (hscan : ∀ i, scanList key (m'.listAt i) = scanList key (m.listAt i)) :
    m'.get key = m.get key := by
  unfold get
  rw [hash_congr m m' hsz, getLoop_congr m m' key _ hsz hscan]

/-- The table after `remove` is the input table, or the input table with the value of
the first pair with the key reset in one list. -/
theorem removeLoop_shape [Inhabited T] (m : HashMap T) (key : String) (s : Nat) :
    ∀ (n inc : Nat), (removeLoop m key s n inc).2 = m ∨
      ∃ idx, (removeLoop m key s n inc).2
        = m.storeList idx (assignFirst key default (m.listAt idx)) := by
  intro n
  induction n with
  | zero => intro inc; exact Or.inl rfl
  | succ n ih =>
    intro inc
    rw [removeLoop]
    cases hsc : scanList key (m.listAt (m.probeIndex s inc)) with
    | some w => exact Or.inr ⟨_, rfl⟩
    | none => exact ih (inc + 1)

theorem scan_after_storeList_assignFirst (m : HashMap T) (key other : String) (value : T)
    (idx : Nat) (h : key ≠ other) (i : Nat) :
    scanList key ((m.storeList idx (assignFirst other value (m.listAt idx))).listAt i)
      = scanList key (m.listAt i) := by
  rw [listAt_storeList]
  by_cases hc : i = idx ∧ idx < m.map.length
  · rw [if_pos hc, hc.1]
    exact scanList_assignFirst_ne key other value _ h
  · rw [if_neg hc]

/-- A call of `remove` on another key leaves every scan for `key` as it was. -/
theorem scan_after_remove [Inhabited T] (m : HashMap T) (key other : String)
    (h : key ≠ other) (i : Nat) :
    scanList key ((m.remove other).2.listAt i) = scanList key (m.listAt i) := by
  by_cases hK : other = ""
  · simp [remove, hK]
  · simp only [remove, hK, if_false]
    rcases removeLoop_shape m other (m.hash other) 7 0 with hm | ⟨idx, hm⟩
    · rw [hm]
    · rw [hm]
      exact scan_after_storeList_assignFirst m key other default idx h i

/-- A call of `set` on another key leaves every scan for `key` as it was. -/
theorem scan_after_set [Inhabited T] [DecidableEq T] (m : HashMap T) (key other : String)
    (value : T) (h : key ≠ other) (i : Nat) :
    scanList key ((m.set other value).2.listAt i) = scanList key (m.listAt i) := by
  by_cases hK : other = ""
  · simp [set, hK]
  · cases hex : setLoop m other (m.hash other) 5 0 32767 (m.hash other) with
    | found idx v =>
      rw [set_of_found m other value idx v hK hex]
      by_cases hv : v ≠ default
      · rw [if_pos hv]
      · rw [if_neg hv]
        exact scan_after_storeList_assignFirst m key other value idx h i
    | done idx j =>
      rw [set_of_done m other value idx j hK hex]
      have hl : ∀ c : Nat, ({ m.storeList idx (m.listAt idx ++ [(other, value)]) with
          itemsInMap := c } : HashMap T).listAt i
          = (m.storeList idx (m.listAt idx ++ [(other, value)])).listAt i := fun _ => rfl
      simp only
      rw [hl, listAt_storeList]
      by_cases hc : i = idx ∧ idx < m.map.length
      · rw [if_pos hc, hc.1]
        exact scanList_append_ne key other value _ h
      · rw [if_neg hc]

/-! ## Exact results of `remove` and of an appending `set` -/

/-- The loop of `remove` resets the first pair with the key met in probe order. -/
theorem removeLoop_first_hit [Inhabited T] (m : HashMap T) (key : String) (s : Nat) (v : T) :
    ∀ (g n inc : Nat), g < n →
      (∀ b, b < g → scanList key (m.listAt (m.probeIndex s (inc + b))) = none) →
      scanList key (m.listAt (m.probeIndex s (inc + g))) = some v →
      removeLoop m key s n inc = (v, m.storeList (m.probeIndex s (inc + g))
        (assignFirst key default (m.listAt (m.probeIndex s (inc + g))))) := by
  intro g
  induction g with
  | zero =>
    intro n inc hn _ hhit
    obtain ⟨n, rfl⟩ : ∃ n0, n = n0 + 1 := ⟨n - 1, by omega⟩
    rw [removeLoop]
    simp only [Nat.add_zero] at hhit ⊢
    simp only [hhit]
  | succ g ih =>
    intro n inc hn hpre hhit
    obtain ⟨n, rfl⟩ : ∃ n0, n = n0 + 1 := ⟨n - 1, by omega⟩
    rw [removeLoop]
    have h0 := hpre 0 (by omega)
    simp only [Nat.add_zero] at h0
    simp only [h0]
    have := ih n (inc + 1) (by omega)
      (fun b hb => by
        have := hpre (b + 1) (by omega)
        rwa [show inc + (b + 1) = inc + 1 + b by omega] at this)
      (by rwa [show inc + (g + 1) = inc + 1 + g by omega] at hhit)
    rw [this, show inc + (g + 1) = inc + 1 + g by omega]

/-- Without the key in any probed list the loop of `remove` leaves the table alone. -/
theorem removeLoop_of_none [Inhabited T] (m : HashMap T) (key : String) (s : Nat) :
    ∀ (n inc : Nat),
      (∀ b, b < n → scanList key (m.listAt (m.probeIndex s (inc + b))) = none) →
      removeLoop m key s n inc = (default, m) := by
  intro n
  induction n with
  | zero => intro inc _; rfl
  | succ n ih =>
    intro inc h
    rw [removeLoop]
    have h0 := h 0 (by omega)
    simp only [Nat.add_zero] at h0
    simp only [h0]
    apply ih
    intro b hb
    have := h (b + 1) (by omega)
    rwa [show inc + (b + 1) = inc + 1 + b by omega] at this

/-- The loop of `set` leaves with `done` at the first attempt whose list is empty, or at
the last attempt allowed, when no list inspected holds the key. -/
theorem setLoop_done_of (m : HashMap T) (key : String) (s : Nat) :
    ∀ (a r inc ss si : Nat), a ≤ r →
      (∀ b, b < a → scanList key (m.listAt (m.probeIndex s (inc + b))) = none ∧
        m.listAt (m.probeIndex s (inc + b)) ≠ []) →
      scanList key (m.listAt (m.probeIndex s (inc + a))) = none →
      (m.listAt (m.probeIndex s (inc + a)) = [] ∨ a = r) →
      ∃ j, setLoop m key s r inc ss si = SetExit.done (m.probeIndex s (inc + a)) j := by
  intro a
  induction a with
  | zero =>
    intro r inc ss si _ _ hnone hstop
    rw [setLoop]
    simp only [Nat.add_zero] at hnone hstop ⊢
    simp only [hnone]
    cases r with
    | zero => exact ⟨_, rfl⟩
    | succ r =>
      rcases hstop with h | h
      · simp only [h, List.length_nil, Nat.lt_irrefl, if_false]
        exact ⟨_, rfl⟩
      · omega
  | succ a ih =>
    intro r inc ss si har hpre hnone hstop
    obtain ⟨r, rfl⟩ : ∃ r0, r = r0 + 1 := ⟨r - 1, by omega⟩
    rw [setLoop]
    have h0 := hpre 0 (by omega)
    simp only [Nat.add_zero] at h0
    have hlen : 0 < (m.listAt (m.probeIndex s inc)).length := List.length_pos.mpr h0.2
    simp only [h0.1, hlen, if_true]
    have := ih r (inc + 1)
      (if (m.listAt (m.probeIndex s inc)).length ≤ ss
        then ((m.listAt (m.probeIndex s inc)).length, m.probeIndex s inc) else (ss, si)).1
      (if (m.listAt (m.probeIndex s inc)).length ≤ ss
        then ((m.listAt (m.probeIndex s inc)).length, m.probeIndex s inc) else (ss, si)).2
      (by omega)
      (fun b hb => by
        have := hpre (b + 1) (by omega)
        rwa [show inc + (b + 1) = inc + 1 + b by omega] at this)
      (by rwa [show inc + (a + 1) = inc + 1 + a by omega] at hnone)
      (by
        rw [show inc + (a + 1) = inc + 1 + a by omega] at hstop
        exact hstop.imp id (fun h => by omega))
    rw [show inc + (a + 1) = inc + 1 + a by omega]
    exact this

/-- The result of `set` when its loop inspects no list with the key: the pair is
appended to the list inspected last, and the counter grows only if that list was empty. -/
theorem set_of_no_key [Inhabited T] [DecidableEq T] (m : HashMap T) (key : String)
    (value : T) (hK : key ≠ "") (a : Nat) (ha : a ≤ 5)
    (hpre : ∀ b, b < a → scanList key (m.listAt (m.probeIndex (m.hash key) b)) = none ∧
      m.listAt (m.probeIndex (m.hash key) b) ≠ [])
    (hnone : scanList key (m.listAt (m.probeIndex (m.hash key) a)) = none)
    (hstop : m.listAt (m.probeIndex (m.hash key) a) = [] ∨ a = 5) :
    m.set key value = (true,
      { m.storeList (m.probeIndex (m.hash key) a)
          (m.listAt (m.probeIndex (m.hash key) a) ++ [(key, value)]) with
        itemsInMap := if m.listAt (m.probeIndex (m.hash key) a) = []
          then (m.itemsInMap + 1) % 2 ^ 32 else m.itemsInMap }) := by
  obtain ⟨j, hloop⟩ := setLoop_done_of m key (m.hash key) a 5 0 32767 (m.hash key) ha
    (fun b hb => by simpa using hpre b hb) (by simpa using hnone) (by simpa using hstop)
  simp only [Nat.zero_add] at hloop
  exact set_of_done m key value _ j hK hloop

/-! ## The hash function -/

theorem wrapInt_of_lt (x : Int) (h0 : 0 ≤ x) (h1 : x < 2 ^ 31) : wrapInt x = x := by
  unfold wrapInt
  omega

/-- A key of characters with codes below 128 holds exactly these codes as `char`s. -/
theorem charValues_of_ascii (cs : List Char) (h : ∀ c ∈ cs, c.toNat < 128) :
    (cs.flatMap utf8Bytes).map charValue = cs.map (fun c => (c.toNat : Int)) := by
  induction cs with
  | nil => rfl
  | cons c cs ih =>
    have hc : c.toNat < 128 := h c (List.mem_cons_self _ _)
    have hb : utf8Bytes c = [c.toNat] := by
      simp [utf8Bytes, hc]
    rw [List.flatMap_cons, List.map_append, hb, ih (fun x hx => h x (List.mem_cons_of_mem _ hx))]
    simp [charValue, hc]

/-- Without overflow of the `int` multiplier, of the `int` product and of the
`unsigned long` sum the loop of `hash` adds the weighted character codes to the running
sum. -/
theorem hashLoop_eq (cs : List Char) :
    ∀ (i sum : Nat),
      (∀ ic ∈ List.enumFrom i cs,
        (ic.1 + 1) ^ 2 < 2 ^ 31 ∧ ic.2.toNat * (ic.1 + 1) ^ 2 < 2 ^ 31) →
      sum + ((List.enumFrom i cs).map (fun ic => ic.2.toNat * (ic.1 + 1) ^ 2)).sum < 2 ^ 64 →
      hashLoop (cs.map (fun c => (c.toNat : Int))) i sum
        = sum + ((List.enumFrom i cs).map (fun ic => ic.2.toNat * (ic.1 + 1) ^ 2)).sum := by
  induction cs with
  | nil => intro i sum _ _; simp [hashLoop]
  | cons c cs ih =>
    intro i sum hint h
    simp only [List.enumFrom_cons, List.map_cons, List.sum_cons] at h ⊢
    obtain ⟨hm, hp⟩ := hint (i, c) (by simp)
    simp only at hm hp
    have hmul : wrapInt (((i : Int) + 1) * ((i : Int) + 1)) = (((i + 1) ^ 2 : Nat) : Int) := by
      have he : ((i : Int) + 1) * ((i : Int) + 1) = (((i + 1) ^ 2 : Nat) : Int) := by
        push_cast; ring
      rw [he]
      exact wrapInt_of_lt _ (Int.ofNat_nonneg _) (by exact_mod_cast hm)
    have hprod : wrapInt ((c.toNat : Int) * (((i + 1) ^ 2 : Nat) : Int))
        = ((c.toNat * (i + 1) ^ 2 : Nat) : Int) := by
      have he : (c.toNat : Int) * (((i + 1) ^ 2 : Nat) : Int)
          = ((c.toNat * (i + 1) ^ 2 : Nat) : Int) := by
        push_cast; ring
      rw [he]
      exact wrapInt_of_lt _ (Int.ofNat_nonneg _) (by exact_mod_cast hp)
    rw [hashLoop]
    simp only [hmul, hprod]
    have hstep : (((sum : Int) + ((c.toNat * (i + 1) ^ 2 : Nat) : Int)) % 2 ^ 64).toNat
        = sum + c.toNat * (i + 1) ^ 2 := by
      generalize c.toNat * (i + 1) ^ 2 = t at h ⊢
      omega
    rw [hstep, ih (i + 1) _
      (fun ic hic => hint ic (by simp only [List.enumFrom_cons]; exact List.mem_cons_of_mem _ hic))
      (by omega)]
    omega

/-! ## A table of capacity 1 -/

theorem scanList_of_mem_nodup (key : String) (value : T) (l : Bucket T)
    (hnd : (l.map Prod.fst).Nodup) (hmem : (key, value) ∈ l) :
    scanList key l = some value := by
  induction l with
  | nil => simp at hmem
  | cons p ps ih =>
    simp only [List.map_cons, List.nodup_cons] at hnd
    rcases List.mem_cons.mp hmem with h | h
    · subst h
      simp [scanList]
    · have hp : p.1 ≠ key := by
        intro hpk
        apply hnd.1
        rw [hpk]
        exact List.mem_map_of_mem Prod.fst h
      simp only [scanList, hp, if_false]
      exact ih hnd.2 h

/-- In a table of capacity 1 a `set` with a key absent from the only list appends to it. -/
theorem set_single [Inhabited T] [DecidableEq T] (b : Bucket T) (c : Nat) (key : String)
    (value : T) (hK : key ≠ "") (hnone : scanList key b = none) :
    ({ map := [b], itemsInMap := c, mapSize := 1 } : HashMap T).set key value =
      (true, { map := [b ++ [(key, value)]],
               itemsInMap := if b = [] then (c + 1) % 2 ^ 32 else c, mapSize := 1 }) := by
  have hidx : ∀ s a, ({ map := [b], itemsInMap := c, mapSize := 1 } : HashMap T).probeIndex s a
      = 0 := fun s a => Nat.mod_one _
  have hlist : ({ map := [b], itemsInMap := c, mapSize := 1 } : HashMap T).listAt 0 = b := rfl
  by_cases hb : b = []
  · have := set_of_no_key ({ map := [b], itemsInMap := c, mapSize := 1 } : HashMap T)
      key value hK 0 (by omega) (fun b hb => absurd hb (by omega))
      (by rw [hidx, hlist]; exact hnone) (Or.inl (by rw [hidx, hlist]; exact hb))
    rw [this, hidx, hlist]
    rfl
  · have := set_of_no_key ({ map := [b], itemsInMap := c, mapSize := 1 } : HashMap T)
      key value hK 5 (le_refl 5)
      (fun a _ => by rw [hidx, hlist]; exact ⟨hnone, hb⟩)
      (by rw [hidx, hlist]; exact hnone) (Or.inr rfl)
    rw [this, hidx, hlist]
    rfl

/-- Inserting pairwise distinct non-empty keys into a table of capacity 1 appends them
in order to the only list; the counter grows once, when the list was empty. -/
theorem setAll_single [Inhabited T] [DecidableEq T] (kvs : List (String × T)) :
    ∀ (b : Bucket T) (c : Nat), (∀ kv ∈ kvs, kv.1 ≠ "") →
      ((b ++ kvs).map Prod.fst).Nodup →
      AllSucceed ({ map := [b], itemsInMap := c, mapSize := 1 } : HashMap T) kvs ∧
      setAll ({ map := [b], itemsInMap := c, mapSize := 1 } : HashMap T) kvs =
        { map := [b ++ kvs],
          itemsInMap := if b = [] ∧ kvs ≠ [] then (c + 1) % 2 ^ 32 else c, mapSize := 1 } := by
  induction kvs with
  | nil =>
    intro b c _ _
    simp [AllSucceed, setAll]
  | cons kv rest ih =>
    intro b c hne hnd
    have hK : kv.1 ≠ "" := hne kv (List.mem_cons_self _ _)
    have hnone : scanList kv.1 b = none := by
      rw [scanList_none_iff]
      intro p hp hpk
      rw [List.map_append, List.map_cons, List.nodup_append] at hnd
      exact hnd.2.2 (List.mem_map_of_mem Prod.fst hp) (by rw [hpk]; exact List.mem_cons_self _ _)
    have hset := set_single b c kv.1 kv.2 hK hnone
    have hnd2 : (((b ++ [kv]) ++ rest).map Prod.fst).Nodup := by
      rw [List.append_assoc]
      exact hnd
    obtain ⟨hall, hres⟩ := ih (b ++ [kv]) (if b = [] then (c + 1) % 2 ^ 32 else c)
      (fun x hx => hne x (List.mem_cons_of_mem _ hx)) hnd2
    refine ⟨?_, ?_⟩
    · simp only [AllSucceed]
      rw [hset]
      exact ⟨rfl, hall⟩
    · simp only [setAll]
      rw [hset]
      simp only
      rw [hres]
      simp

theorem get_single [Inhabited T] (l : Bucket T) (c : Nat) (key : String) (value : T)
    (hK : key ≠ "") (hnd : (l.map Prod.fst).Nodup) (hmem : (key, value) ∈ l) :
    ({ map := [l], itemsInMap := c, mapSize := 1 } : HashMap T).get key = value := by
  simp only [get, hK, if_false]
  rw [getLoop]
  have hidx : ({ map := [l], itemsInMap := c, mapSize := 1 } : HashMap T).probeIndex
      (({ map := [l], itemsInMap := c, mapSize := 1 } : HashMap T).hash key) 0 = 0 :=
    Nat.mod_one _
  have hlist : ({ map := [l], itemsInMap := c, mapSize := 1 } : HashMap T).listAt 0 = l := rfl
  simp only [hidx, hlist, scanList_of_mem_nodup key value l hnd hmem]

/-! ## Keys of reachable tables -/

theorem allKeys_of_keys (m m' : HashMap T)
    (hkeys : m'.map.map (List.map Prod.fst) = m.map.map (List.map Prod.fst)) :
    m'.allKeys = m.allKeys := by
  unfold allKeys
  rw [List.map_flatten, List.map_flatten, hkeys]

theorem flatten_set_append_perm {α : Type} :
    ∀ (L : List (List α)) (i : Nat) (x : α), i < L.length →
      (L.set i (L.getD i [] ++ [x])).flatten.Perm (x :: L.flatten) := by
  intro L
  induction L with
  | nil => intro i x hi; simp at hi
  | cons l L ih =>
    intro i x hi
    cases i with
    | zero =>
      simp only [List.set_cons_zero, List.getD_cons_zero, List.flatten_cons, List.append_assoc,
        List.singleton_append]
      exact List.perm_middle
    | succ i =>
      simp only [List.set_cons_succ, List.getD_cons_succ, List.flatten_cons]
      have h := ih i x (by simpa using hi)
      exact (List.Perm.append_left l h).trans List.perm_middle

theorem mem_flatten_of_mem_listAt (m : HashMap T) (i : Nat) (p : String × T)
    (hp : p ∈ m.listAt i) : p ∈ m.map.flatten :=
  List.mem_flatten.mpr ⟨m.listAt i, mem_map_of_mem_listAt m i p hp, hp⟩

theorem exists_listAt_of_mem_allKeys (m : HashMap T) (k : String) (hk : k ∈ m.allKeys) :
    ∃ i p, p ∈ m.listAt i ∧ p.1 = k := by
  unfold allKeys at hk
  obtain ⟨p, hp, hpk⟩ := List.mem_map.mp hk
  obtain ⟨l, hl, hpl⟩ := List.mem_flatten.mp hp
  obtain ⟨i, hi, hli⟩ := List.getElem_of_mem hl
  refine ⟨i, p, ?_, hpk⟩
  unfold listAt
  rw [List.getD_eq_getElem _ _ hi, hli]
  exact hpl

/-- When the loop of `set` ends without meeting the key, a table satisfying `Placed`
holds the key nowhere. -/
theorem not_mem_of_done (m : HashMap T) (hp : m.Placed) (key : String) (a : Nat)
    (hpre : ∀ b, b < a → scanList key (m.listAt (m.probeIndex (m.hash key) b)) = none ∧
      m.listAt (m.probeIndex (m.hash key) b) ≠ [])
    (hnone : scanList key (m.listAt (m.probeIndex (m.hash key) a)) = none)
    (hstop : m.listAt (m.probeIndex (m.hash key) a) = [] ∨ a = 5) :
    key ∉ m.allKeys := by
  intro hk
  obtain ⟨i, p, hpi, hpk⟩ := exists_listAt_of_mem_allKeys m key hk
  obtain ⟨a', ha', hidx', hpre'⟩ := hp i p hpi
  rw [hpk] at hidx' hpre'
  have hsome : scanList key (m.listAt (m.probeIndex (m.hash key) a')) ≠ none := by
    rw [hidx']
    intro hn
    exact (scanList_none_iff key _).mp hn p hpi hpk
  rcases Nat.lt_trichotomy a' a with h | h | h
  · exact hsome (hpre a' h).1
  · rw [h] at hsome
    exact hsome hnone
  · rcases hstop with hs | hs
    · exact hpre' a h hs
    · omega

/-- Every call keeps the keys of the table pairwise distinct and non-empty. -/
theorem step_keys [Inhabited T] [DecidableEq T] (m : HashMap T) (hwf : m.WF)
    (h1 : 1 ≤ m.mapSize) (hp : m.Placed) (hnd : m.allKeys.Nodup)
    (hne : ∀ k ∈ m.allKeys, k ≠ "") (op : Op T) :
    (m.step op).allKeys.Nodup ∧ ∀ k ∈ (m.step op).allKeys, k ≠ "" := by
  have hsame : ∀ m' : HashMap T,
      m'.map.map (List.map Prod.fst) = m.map.map (List.map Prod.fst) →
      m'.allKeys.Nodup ∧ ∀ k ∈ m'.allKeys, k ≠ "" := by
    intro m' hkeys
    rw [allKeys_of_keys m m' hkeys]
    exact ⟨hnd, hne⟩
  cases op with
  | get key => exact ⟨hnd, hne⟩
  | remove key => exact hsame _ (remove_keys m key).1
  | set key value =>
    simp only [step]
    rcases set_cases m key value with ⟨hkeys, _, _⟩ | ⟨hK, a, _, hpre, hnone, hstop, hset⟩
    · exact hsame _ hkeys
    · have hlt := probeIndex_lt m hwf h1 (m.hash key) a
      have hnot := not_mem_of_done m hp key a hpre hnone hstop
      have hperm : (m.set key value).2.allKeys.Perm (key :: m.allKeys) := by
        rw [hset]
        unfold allKeys storeList listAt
        simp only
        exact (flatten_set_append_perm m.map _ (key, value) hlt).map Prod.fst
      refine ⟨hperm.nodup_iff.mpr (List.nodup_cons.mpr ⟨hnot, hnd⟩), ?_⟩
      intro k hk
      rcases List.mem_cons.mp (hperm.mem_iff.mp hk) with h | h
      · rw [h]; exact hK
      · exact hne k h

theorem run_keys [Inhabited T] [DecidableEq T] (ops : List (Op T)) :
    ∀ (m : HashMap T), m.WF → 1 ≤ m.mapSize → m.Placed → m.allKeys.Nodup →
      (∀ k ∈ m.allKeys, k ≠ "") →
      (m.run ops).allKeys.Nodup ∧ ∀ k ∈ (m.run ops).allKeys, k ≠ "" := by
  induction ops with
  | nil => intro m _ _ _ hnd hne; exact ⟨hnd, hne⟩
  | cons op ops ih =>
    intro m hwf h1 hp hnd hne
    obtain ⟨hwf', hsz', hp'⟩ := step_placed m hwf h1 hp op
    obtain ⟨hnd', hne'⟩ := step_keys m hwf h1 hp hnd hne op
    exact ih (m.step op) hwf' (by omega) hp' hnd' hne'

theorem new_keys (T : Type) (size : Nat) : (HashMap.new T size).allKeys = [] := by
  unfold allKeys HashMap.new
  simp only [List.map_eq_nil_iff, List.flatten_eq_nil_iff]
  intro l hl
  exact (List.mem_replicate.mp hl).2

/-- With pairwise distinct keys, no list holds a key twice and no two lists share one. -/
theorem keys_apart_of_nodup (m : HashMap T) (hnd : m.allKeys.Nodup) :
    (∀ i, ((m.listAt i).map Prod.fst).Nodup) ∧
    (∀ i j, i ≠ j → ∀ p ∈ m.listAt i, ∀ q ∈ m.listAt j, p.1 ≠ q.1) := by
  unfold allKeys at hnd
  rw [List.map_flatten, List.nodup_flatten] at hnd
  obtain ⟨hin, hpair⟩ := hnd
  have hget : ∀ i p, p ∈ m.listAt i → ∃ h : i < m.map.length, m.listAt i = m.map[i] := by
    intro i p hp
    by_cases hi : i < m.map.length
    · exact ⟨hi, List.getD_eq_getElem _ _ hi⟩
    · unfold listAt at hp
      rw [List.getD_eq_default _ _ (by omega)] at hp
      simp at hp
  have hlt : ∀ i j, i < j → ∀ p ∈ m.listAt i, ∀ q ∈ m.listAt j, p.1 ≠ q.1 := by
    intro i j hij p hp q hq heq
    obtain ⟨hi, hli⟩ := hget i p hp
    obtain ⟨hj, hlj⟩ := hget j q hq
    have hd := List.pairwise_iff_getElem.mp hpair i j (by simpa using hi) (by simpa using hj) hij
    simp only [List.getElem_map] at hd
    rw [hli] at hp
    rw [hlj] at hq
    exact hd (List.mem_map_of_mem Prod.fst hp) (by rw [heq]; exact List.mem_map_of_mem Prod.fst hq)
  constructor
  · intro i
    by_cases hi : i < m.map.length
    · have : m.listAt i = m.map[i] := List.getD_eq_getElem _ _ hi
      rw [this]
      exact hin _ (List.mem_map_of_mem _ (List.getElem_mem hi))
    · have : m.listAt i = [] := List.getD_eq_default _ _ (by omega)
      rw [this]
      exact List.nodup_nil
  · intro i j hij p hp q hq
    rcases Nat.lt_or_gt_of_ne hij with h | h
    · exact hlt i j h p hp q hq
    · exact fun heq => hlt j i h q hq p hp heq.symm

/-- If some probed list holds the key, the loop of `get` returns the value of a stored
pair with the key. -/
theorem getLoop_mem [Inhabited T] (m : HashMap T) (key : String) (s : Nat) :
    ∀ (n inc : Nat),
      (∃ a, a < n ∧ scanList key (m.listAt (m.probeIndex s (inc + a))) ≠ none) →
      ∃ g, (key, getLoop m key s n inc) ∈ m.listAt (m.probeIndex s g) := by
  intro n
  induction n with
  | zero => intro inc ⟨a, ha, _⟩; omega
  | succ n ih =>
    intro inc ⟨a, ha, hsome⟩
    rw [getLoop]
    cases hsc : scanList key (m.listAt (m.probeIndex s inc)) with
    | some w => exact ⟨inc, mem_of_scanList key _ w hsc⟩
    | none =>
      simp only
      apply ih (inc + 1)
      cases a with
      | zero =>
        simp only [Nat.add_zero] at hsome
        exact absurd hsc hsome
      | succ a =>
        refine ⟨a, by omega, ?_⟩
        rwa [show inc + (a + 1) = inc + 1 + a by omega] at hsome

/-! ## The counters of reachable tables -/

/-- No call changes `mapSize`. -/
theorem step_mapSize [Inhabited T] [DecidableEq T] (m : HashMap T) (op : Op T) :
    (m.step op).mapSize = m.mapSize := by
  cases op with
  | get key => rfl
  | remove key => exact (remove_keys m key).2.2
  | set key value =>
    simp only [step]
    rcases set_cases m key value with ⟨_, _, hsz⟩ | ⟨_, _, _, _, _, _, hset⟩
    · exact hsz
    · rw [hset]; rfl

theorem run_mapSize [Inhabited T] [DecidableEq T] (ops : List (Op T)) :
    ∀ (m : HashMap T), (m.run ops).mapSize = m.mapSize := by
  induction ops with
  | nil => intro m; rfl
  | cons op ops ih =>
    intro m
    have h : m.run (op :: ops) = (m.step op).run ops := rfl
    rw [h, ih, step_mapSize]

theorem new_counted (T : Type) (size : Nat) :
    (HashMap.new T size).itemsInMap = (HashMap.new T size).nonEmptyLists := by
  symm
  unfold HashMap.new nonEmptyLists
  rw [List.countP_eq_zero]
  intro b hb
  rw [(List.mem_replicate.mp hb).2]
  simp

/-- In a table reached from the constructor the array has `mapSize = size` lists and
`itemsInMap` counts the non-empty ones. -/
theorem reach_counted [Inhabited T] [DecidableEq T] (size : Nat) (h1 : 1 ≤ size)
    (h32 : size < 2 ^ 32) (ops : List (Op T)) :
    ((HashMap.new T size).run ops).WF ∧ ((HashMap.new T size).run ops).mapSize = size ∧
      ((HashMap.new T size).run ops).itemsInMap
        = ((HashMap.new T size).run ops).nonEmptyLists := by
  obtain ⟨hwf, hsz, hp⟩ := new_placed T size
  obtain ⟨hwf', hsz', _⟩ := run_placed ops (HashMap.new T size) hwf (by omega) hp
  exact ⟨hwf', by rw [hsz', hsz],
    run_counted ops (HashMap.new T size) hwf (by omega) (by omega) hp (new_counted T size)⟩

/-- While some list of the array is empty, the counter of non-empty lists is below the
largest `unsigned int`, so `itemsInMap++` does not wrap. -/
theorem counter_room [Inhabited T] [DecidableEq T] (m : HashMap T) (hwf : m.WF)
    (h32 : m.mapSize < 2 ^ 32) (hc : m.itemsInMap = m.nonEmptyLists) (idx : Nat)
    (hlt : idx < m.map.length) (hnil : m.listAt idx = []) :
    m.itemsInMap + 1 < 2 ^ 32 := by
  have hle := nonEmptyLists_le
    ({ m.storeList idx (m.listAt idx ++ [("", default)]) with itemsInMap := 0 } : HashMap T)
  rw [nonEmptyLists_append m idx ("", default) 0 hlt] at hle
  simp only [hnil, if_true] at hle
  rw [storeList_length, hwf] at hle
  omega

/-- On a table whose counter counts the non-empty lists, a call leaves `itemsInMap` as it
was or raises it by one, the latter only when it is a `set` that returns `true`. -/
theorem step_counters [Inhabited T] [DecidableEq T] (m : HashMap T) (hwf : m.WF)
    (h1 : 1 ≤ m.mapSize) (h32 : m.mapSize < 2 ^ 32)
    (hc : m.itemsInMap = m.nonEmptyLists) (op : Op T) :
    (m.step op).mapSize = m.mapSize ∧
    ((m.step op).itemsInMap = m.itemsInMap ∨
      ((m.step op).itemsInMap = m.itemsInMap + 1 ∧
        ∃ k v, op = Op.set k v ∧ (m.set k v).1 = true)) := by
  refine ⟨step_mapSize m op, ?_⟩
  cases op with
  | get key => exact Or.inl rfl
  | remove key => exact Or.inl (remove_keys m key).2.1
  | set key value =>
    simp only [step]
    rcases set_cases m key value with ⟨_, hitems, _⟩ | ⟨_, a, _, _, _, _, hset⟩
    · exact Or.inl hitems
    · have hlt := probeIndex_lt m hwf h1 (m.hash key) a
      by_cases hnil : m.listAt (m.probeIndex (m.hash key) a) = []
      · right
        have hroom := counter_room m hwf h32 hc _ hlt hnil
        refine ⟨?_, key, value, rfl, by rw [hset]⟩
        rw [hset]
        simp only [hnil, if_true]
        exact Nat.mod_eq_of_lt hroom
      · left
        rw [hset]
        simp only [hnil, if_false]

end HashMap

open HashMap

/-! ## Claims -/

/-- C1. Set-then-get round trip: in a table with `mapSize ≥ 1`, for a non-empty key `K`
and a value `V` other than the type default, if no pair with key `K` holds a non-default
value, then `set K V` returns `true` and `get K` on the resulting table returns `V`. -/
theorem C1_set_then_get {T : Type} [Inhabited T] [DecidableEq T] (m : HashMap T)
    (hwf : m.WF) (h1 : 1 ≤ m.mapSize) (K : String) (hK : K ≠ "") (V : T)
    (_hV : V ≠ default)
    (hlive : ∀ b ∈ m.map, ∀ p ∈ b, p.1 = K → p.2 = default) :
    (m.set K V).1 = true ∧ (m.set K V).2.get K = V := by
  have htrue : (m.set K V).1 = true := by
    obtain ⟨_, _, _, _, _, hf, _⟩ := setLoop_spec m K (m.hash K) 5 0 32767 (m.hash K)
    cases hex : setLoop m K (m.hash K) 5 0 32767 (m.hash K) with
    | found idx v =>
      rw [set_of_found m K V idx v hK hex]
      have hmem := mem_of_scanList K _ v (hf idx v hex)
      have hv : v = default :=
        hlive _ (mem_map_of_mem_listAt m idx _ hmem) _ hmem rfl
      simp [hv]
    | done idx j =>
      rw [set_of_done m K V idx j hK hex]
  refine ⟨htrue, ?_⟩
  exact get_after_set m _ hwf h1 K V (Prod.ext htrue rfl)

/-- Witness of C1 on a table of capacity 3 that already holds another key. -/
theorem C1_set_then_get_witness :
    (((HashMap.new Int 3).set "b" 2).2.set "a" 5).1 = true ∧
      (((HashMap.new Int 3).set "b" 2).2.set "a" 5).2.get "a" = 5 :=
  C1_set_then_get ((HashMap.new Int 3).set "b" 2).2 (by decide) (by decide) "a" (by decide) 5
    (by decide) (by decide)

/-- C2. Duplicate insert is rejected: in a table with `mapSize ≥ 1`, for a non-empty key
`K`, a non-default `V1` and any `V2`, if `set K V1` returns `true` then an immediately
following `set K V2` returns `false` and leaves the whole table (every list and both
counters) as it was, and `get K` afterwards still returns `V1`. -/
theorem C2_duplicate_set_rejected {T : Type} [Inhabited T] [DecidableEq T] (m : HashMap T)
    (hwf : m.WF) (h1 : 1 ≤ m.mapSize) (K : String) (_hK : K ≠ "") (V1 : T)
    (hV1 : V1 ≠ default) (V2 : T) (hset : (m.set K V1).1 = true) :
    (m.set K V1).2.set K V2 = (false, (m.set K V1).2) ∧
      ((m.set K V1).2.set K V2).2.get K = V1 := by
  have heq : m.set K V1 = (true, (m.set K V1).2) := Prod.ext hset rfl
  obtain ⟨hK, _⟩ := set_true_shape m _ hwf h1 K V1 heq
  obtain ⟨idx, _, hloop⟩ := setLoop_after_set m _ hwf h1 K V1 heq
  have h2 : (m.set K V1).2.set K V2 = (false, (m.set K V1).2) := by
    rw [set_of_found _ K V2 idx V1 hK hloop]
    simp [hV1]
  refine ⟨h2, ?_⟩
  rw [h2]
  exact get_after_set m _ hwf h1 K V1 heq

/-- Witness of C2 on the empty table of capacity 10. -/
theorem C2_duplicate_set_rejected_witness :
    ((HashMap.new Int 10).set "a" 5).2.set "a" 9 = (false, ((HashMap.new Int 10).set "a" 5).2) ∧
      (((HashMap.new Int 10).set "a" 5).2.set "a" 9).2.get "a" = 5 :=
  C2_duplicate_set_rejected (HashMap.new Int 10) (by decide) (by decide) "a" (by decide) 5
    (by decide) 9 (by decide)

/-- C3. Set-remove-get: in a table with `mapSize ≥ 1`, for a non-empty key `K` and a value
`V`, if `set K V` returns `true` then `remove K` on the resulting table returns `V`, and
`get K` after that `remove` returns the type default. -/
theorem C3_set_remove_get {T : Type} [Inhabited T] [DecidableEq T] (m : HashMap T)
    (hwf : m.WF) (h1 : 1 ≤ m.mapSize) (K : String) (_hK : K ≠ "") (V : T)
    (hset : (m.set K V).1 = true) :
    ((m.set K V).2.remove K).1 = V ∧ ((m.set K V).2.remove K).2.get K = default := by
  have heq : m.set K V = (true, (m.set K V).2) := Prod.ext hset rfl
  obtain ⟨hK, _⟩ := set_true_shape m _ hwf h1 K V heq
  obtain ⟨idx, hlt, hloop⟩ := setLoop_after_set m _ hwf h1 K V heq
  obtain ⟨hrem, hget, _⟩ := remove_of_found (m.set K V).2 K idx V hK hlt hloop
  refine ⟨?_, hget⟩
  rw [hrem]

/-- Witness of C3 on the empty table of capacity 10. -/
theorem C3_set_remove_get_witness :
    (((HashMap.new Int 10).set "a" 5).2.remove "a").1 = 5 ∧
      (((HashMap.new Int 10).set "a" 5).2.remove "a").2.get "a" = default :=
  C3_set_remove_get (HashMap.new Int 10) (by decide) (by decide) "a" (by decide) 5 (by decide)

/-- C4. The empty key is rejected atomically: for every table and value `V`,
`set "" V` returns `false` and the resulting table is the input table. -/
theorem C4_empty_key_rejected {T : Type} [Inhabited T] [DecidableEq T] (m : HashMap T)
    (V : T) : m.set "" V = (false, m) := by
  simp [HashMap.set]

/-- C6. `remove` returns what `get` would have returned: in a table with `mapSize ≥ 1`,
for every key `K` (the empty key included), the value returned by `remove K` is the
value `get K` returns on the same table; it is the type default when `K` occurs in
none of the seven probed lists. -/
theorem C6_remove_returns_get {T : Type} [Inhabited T] (m : HashMap T)
    (_hwf : m.WF) (_h1 : 1 ≤ m.mapSize) (K : String) :
    (m.remove K).1 = m.get K ∧
      ((∀ a, a < 7 → scanList K (m.listAt (m.probeIndex (m.hash K) a)) = none) →
        (m.remove K).1 = default) := by
  have heq : (m.remove K).1 = m.get K := by
    by_cases hK : K = ""
    · simp [HashMap.remove, HashMap.get, hK]
    · simp only [HashMap.remove, HashMap.get, hK, if_false]
      exact removeLoop_fst m K (m.hash K) 7 0
  refine ⟨heq, ?_⟩
  intro habs
  rw [heq]
  by_cases hK : K = ""
  · simp [HashMap.get, hK]
  · simp only [HashMap.get, hK, if_false]
    apply getLoop_of_none
    intro b hb
    rw [Nat.zero_add]
    exact habs b hb

/-- Witness of C6 on a table of capacity 1 holding two keys. -/
theorem C6_remove_returns_get_witness :
    ((((HashMap.new Int 1).set "a" 5).2.set "b" 6).2.remove "b").1
        = (((HashMap.new Int 1).set "a" 5).2.set "b" 6).2.get "b" ∧
      ((∀ a, a < 7 → scanList "b" ((((HashMap.new Int 1).set "a" 5).2.set "b" 6).2.listAt
          ((((HashMap.new Int 1).set "a" 5).2.set "b" 6).2.probeIndex
            ((((HashMap.new Int 1).set "a" 5).2.set "b" 6).2.hash "b") a)) = none) →
        ((((HashMap.new Int 1).set "a" 5).2.set "b" 6).2.remove "b").1 = default) :=
  C6_remove_returns_get (((HashMap.new Int 1).set "a" 5).2.set "b" 6).2 (by decide) (by decide) "b"

/-- C7. `remove` never changes the load: for every table and key `K`, `remove K` leaves
`itemsInMap` and `mapSize` as they were, so `load` returns the same value. -/
theorem C7_remove_keeps_load {T : Type} [Inhabited T] (m : HashMap T) (K : String) :
    (m.remove K).2.itemsInMap = m.itemsInMap ∧ (m.remove K).2.mapSize = m.mapSize ∧
      (m.remove K).2.load = m.load := by
  have h : (m.remove K).2.itemsInMap = m.itemsInMap ∧ (m.remove K).2.mapSize = m.mapSize := by
    by_cases hK : K = ""
    · simp [HashMap.remove, hK]
    · simp only [HashMap.remove, hK, if_false]
      exact ⟨(removeLoop_counters m K (m.hash K) 7 0).1,
        (removeLoop_counters m K (m.hash K) 7 0).2.1⟩
  refine ⟨h.1, h.2, ?_⟩
  simp only [HashMap.load, h.1, h.2]

/-- C8. Reference definition of `get`: in a table with `mapSize ≥ 1`, `get K` is the
value of the first pair with key `K` met when the lists at indices
`(hash K + a * a) % mapSize`, `a = 0, ..., 6`, are scanned in order, each front to back
(whatever that value is); it is the type default if none of the seven lists holds `K`,
and also when `K` is the empty string. -/
theorem C8_get_reference {T : Type} [Inhabited T] (m : HashMap T)
    (_hwf : m.WF) (_h1 : 1 ≤ m.mapSize) (K : String) :
    m.get K = m.getRef K := by
  by_cases hK : K = ""
  · simp [HashMap.get, HashMap.getRef, hK]
  · simp only [HashMap.get, HashMap.getRef, hK, if_false, HashMap.probedEntries]
    rw [getLoop_eq_find, List.range_eq_range']

/-- Witness of C8 on a table of capacity 1 holding two keys. -/
theorem C8_get_reference_witness :
    (((HashMap.new Int 1).set "a" 5).2.set "b" 6).2.get "b"
      = (((HashMap.new Int 1).set "a" 5).2.set "b" 6).2.getRef "b" :=
  C8_get_reference (((HashMap.new Int 1).set "a" 5).2.set "b" 6).2 (by decide) (by decide) "b"

/-- C10. Slot reuse after `remove`: in a table with `mapSize ≥ 1` and for a non-empty key
`K`, if the first pair with key `K` met by the probe scan of `set` (at attempt `a ≤ 5`,
every list probed before being non-empty and free of `K`) holds the type default, then
`set K V` returns `true`, assigns `V` to that pair in place and changes nothing else:
every list keeps its length and key sequence, every other pair keeps its value and
`itemsInMap` is unchanged.  Consequently `set K V1; remove K; set K V2` ends with
`get K = V2` and with as many pairs (under the same keys) as after the first `set`. -/
theorem C10_slot_reuse {T : Type} [Inhabited T] [DecidableEq T] (m : HashMap T)
    (hwf : m.WF) (h1 : 1 ≤ m.mapSize) (K : String) (hK : K ≠ "") :
    (∀ (V : T) (a : Nat), a ≤ 5 →
      (∀ b, b < a → scanList K (m.listAt (m.probeIndex (m.hash K) b)) = none ∧
        m.listAt (m.probeIndex (m.hash K) b) ≠ []) →
      scanList K (m.listAt (m.probeIndex (m.hash K) a)) = some default →
      (m.set K V).1 = true ∧
      (m.set K V).2 = m.storeList (m.probeIndex (m.hash K) a)
        (assignFirst K V (m.listAt (m.probeIndex (m.hash K) a))) ∧
      (m.set K V).2.itemsInMap = m.itemsInMap ∧
      (m.set K V).2.mapSize = m.mapSize ∧
      (m.set K V).2.map.length = m.map.length ∧
      (∀ i, ((m.set K V).2.listAt i).map Prod.fst = (m.listAt i).map Prod.fst) ∧
      ((m.set K V).2.listAt (m.probeIndex (m.hash K) a))[
        firstPos K (m.listAt (m.probeIndex (m.hash K) a))]? = some (K, V) ∧
      (∀ i j, ¬ (i = m.probeIndex (m.hash K) a ∧
          j = firstPos K (m.listAt (m.probeIndex (m.hash K) a))) →
        ((m.set K V).2.listAt i)[j]? = (m.listAt i)[j]?)) ∧
    (∀ (V1 V2 : T),
      (((m.set K V1).2.remove K).2.set K V2).2.get K = V2 ∧
      (((m.set K V1).2.remove K).2.set K V2).2.numEntries = (m.set K V1).2.numEntries ∧
      (((m.set K V1).2.remove K).2.set K V2).2.map.map (List.map Prod.fst)
        = (m.set K V1).2.map.map (List.map Prod.fst)) := by
  constructor
  · intro V a ha hpre hhit
    have hloop := setLoop_found_of m K (m.hash K) default a 5 0 32767 (m.hash K) ha
      (fun b hb => by simpa using hpre b hb) (by simpa using hhit)
    simp only [Nat.zero_add] at hloop
    have hs := set_of_found m K V _ default hK hloop
    simp only [ne_eq, not_true_eq_false, if_false] at hs
    have hlt := probeIndex_lt m hwf h1 (m.hash K) a
    rw [hs]
    refine ⟨rfl, rfl, rfl, rfl, storeList_length _ _ _, ?_, ?_, ?_⟩
    · intro i
      by_cases hi : i = m.probeIndex (m.hash K) a
      · subst hi
        simp only
        rw [listAt_storeList_self m _ _ hlt]
        exact assignFirst_keys K V _
      · simp only
        rw [listAt_storeList_ne m _ i _ hi]
    · simp only
      rw [listAt_storeList_self m _ _ hlt]
      exact assignFirst_getElem?_firstPos K V _ default hhit
    · intro i j hij
      by_cases hi : i = m.probeIndex (m.hash K) a
      · subst hi
        simp only
        rw [listAt_storeList_self m _ _ hlt]
        exact assignFirst_getElem?_ne K V _ j (fun hj => hij ⟨rfl, hj⟩)
      · simp only
        rw [listAt_storeList_ne m _ i _ hi]
  · intro V1 V2
    obtain ⟨⟨_, hget⟩, hkeys⟩ := set_remove_set m hwf h1 K hK V1 V2
    exact ⟨hget, numEntries_eq_of_keys _ _ hkeys, hkeys⟩

/-- Witness of C10: the table `removedTable` holds `("a", 0)` in list 7; `set "a" 7`
reuses that pair, and `set "a" 5; remove "a"; set "a" 7` on the empty table of capacity 10
ends with `get "a" = 7`. -/
theorem C10_slot_reuse_witness :
    ((removedTable.set "a" 7).1 = true ∧
      (removedTable.set "a" 7).2 = removedTable.storeList
        (removedTable.probeIndex (removedTable.hash "a") 0)
        (assignFirst "a" 7 (removedTable.listAt
          (removedTable.probeIndex (removedTable.hash "a") 0))) ∧
      (removedTable.set "a" 7).2.itemsInMap = removedTable.itemsInMap ∧
      (removedTable.set "a" 7).2.mapSize = removedTable.mapSize ∧
      (removedTable.set "a" 7).2.map.length = removedTable.map.length ∧
      (∀ i, ((removedTable.set "a" 7).2.listAt i).map Prod.fst
        = (removedTable.listAt i).map Prod.fst) ∧
      ((removedTable.set "a" 7).2.listAt (removedTable.probeIndex (removedTable.hash "a") 0))[
        firstPos "a" (removedTable.listAt
          (removedTable.probeIndex (removedTable.hash "a") 0))]? = some ("a", 7) ∧
      (∀ i j, ¬ (i = removedTable.probeIndex (removedTable.hash "a") 0 ∧
          j = firstPos "a" (removedTable.listAt
            (removedTable.probeIndex (removedTable.hash "a") 0))) →
        ((removedTable.set "a" 7).2.listAt i)[j]? = (removedTable.listAt i)[j]?)) ∧
    ((((HashMap.new Int 10).set "a" 5).2.remove "a").2.set "a" 7).2.get "a" = 7 ∧
      ((((HashMap.new Int 10).set "a" 5).2.remove "a").2.set "a" 7).2.numEntries
        = ((HashMap.new Int 10).set "a" 5).2.numEntries ∧
      ((((HashMap.new Int 10).set "a" 5).2.remove "a").2.set "a" 7).2.map.map
          (List.map Prod.fst)
        = ((HashMap.new Int 10).set "a" 5).2.map.map (List.map Prod.fst) :=
  ⟨(C10_slot_reuse removedTable (by decide) (by decide) "a" (by decide)).1 7 0 (by decide)
      (by decide) (by decide),
    (C10_slot_reuse (HashMap.new Int 10) (by decide) (by decide) "a" (by decide)).2 5 7⟩

/-- C5. Exact failure condition of `set`: in every table reached from a freshly
constructed table (`size ≥ 1`) by any sequence of `set`/`get`/`remove` calls, `set K V`
returns `false` if and only if `K` is the empty string or `get K` differs from the
type default; in every other case it returns `true`. -/
theorem C5_set_failure_condition {T : Type} [Inhabited T] [DecidableEq T] (size : Nat)
    (hsize : 1 ≤ size) (ops : List (Op T)) (K : String) (V : T) :
    ((((HashMap.new T size).run ops).set K V).1 = false ↔
        (K = "" ∨ ((HashMap.new T size).run ops).get K ≠ default)) ∧
      ((((HashMap.new T size).run ops).set K V).1 = true ↔
        ¬ (K = "" ∨ ((HashMap.new T size).run ops).get K ≠ default)) := by
  obtain ⟨hwf, hsz, hp⟩ := new_placed T size
  obtain ⟨_, _, hpl⟩ := run_placed ops (HashMap.new T size) hwf (by omega) hp
  have h := set_false_iff_of_placed ((HashMap.new T size).run ops) hpl K V
  refine ⟨h, ?_⟩
  rw [← h]
  simp

/-- Witness of C5: capacity 2, after `set "a" 1; set "b" 2; remove "a"; get "b"`, the
call `set "b" 3`. -/
theorem C5_set_failure_condition_witness :
    ((((HashMap.new Int 2).run
        [Op.set "a" 1, Op.set "b" 2, Op.remove "a", Op.get "b"]).set "b" 3).1 = false ↔
        ("b" = "" ∨ ((HashMap.new Int 2).run
          [Op.set "a" 1, Op.set "b" 2, Op.remove "a", Op.get "b"]).get "b" ≠ default)) ∧
      ((((HashMap.new Int 2).run
        [Op.set "a" 1, Op.set "b" 2, Op.remove "a", Op.get "b"]).set "b" 3).1 = true ↔
        ¬ ("b" = "" ∨ ((HashMap.new Int 2).run
          [Op.set "a" 1, Op.set "b" 2, Op.remove "a", Op.get "b"]).get "b" ≠ default)) :=
  C5_set_failure_condition 2 (by decide)
    [Op.set "a" 1, Op.set "b" 2, Op.remove "a", Op.get "b"] "b" 3

/-- C9. Meaning of the load counter: in every table reached from a freshly constructed
table (`1 ≤ size`, and `size < 2^32` as `mapSize` is an `unsigned int`) by any sequence of
`set`/`get`/`remove` calls, `itemsInMap` is the number of non-empty lists, hence
`itemsInMap ≤ mapSize` and `load ≤ 1`; and after `N` successful insertions into the
fresh table that each landed in a previously empty list, `itemsInMap = N`. -/
theorem C9_load_counter {T : Type} [Inhabited T] [DecidableEq T] (size : Nat)
    (h1 : 1 ≤ size) (h32 : size < 2 ^ 32) (ops : List (Op T)) (kvs : List (String × T))
    (hall : (HashMap.new T size).AllLandInEmpty kvs) :
    ((HashMap.new T size).run ops).itemsInMap = ((HashMap.new T size).run ops).nonEmptyLists ∧
      ((HashMap.new T size).run ops).itemsInMap ≤ ((HashMap.new T size).run ops).mapSize ∧
      ((HashMap.new T size).run ops).load ≤ 1 ∧
      ((HashMap.new T size).setAll kvs).itemsInMap = kvs.length := by
  obtain ⟨hwf, hsz, hp⟩ := new_placed T size
  have h32 : (HashMap.new T size).mapSize < 2 ^ 32 := by
    rw [hsz]; exact h32
  have hc0 : (HashMap.new T size).itemsInMap = (HashMap.new T size).nonEmptyLists := by
    symm
    unfold HashMap.new nonEmptyLists
    rw [List.countP_eq_zero]
    intro b hb
    rw [(List.mem_replicate.mp hb).2]
    simp
  obtain ⟨hwf', hsz', _⟩ := run_placed ops (HashMap.new T size) hwf (by omega) hp
  have hc := run_counted ops (HashMap.new T size) hwf (by omega) h32 hp hc0
  have hle : ((HashMap.new T size).run ops).itemsInMap ≤
      ((HashMap.new T size).run ops).mapSize := by
    rw [hc, ← hwf']
    exact nonEmptyLists_le _
  refine ⟨hc, hle, ?_, ?_⟩
  · unfold HashMap.load
    have hpos : (0 : ℚ) < (((HashMap.new T size).run ops).mapSize : ℚ) := by
      rw [hsz', hsz]
      exact_mod_cast h1
    rw [div_le_one hpos]
    exact_mod_cast hle
  · have := setAll_itemsInMap kvs (HashMap.new T size) hwf (by omega) h32 hp hc0 hall
    rw [this]
    simp [HashMap.new]

/-- Witness of C9: capacity 10; the calls `set "a" 5; remove "a"; set "b" 1; get "a"`,
and the two insertions `("a", 5)`, `("b", 6)` that land in the empty lists 7 and 8. -/
theorem C9_load_counter_witness :
    ((HashMap.new Int 10).run
        [Op.set "a" 5, Op.remove "a", Op.set "b" 1, Op.get "a"]).itemsInMap
      = ((HashMap.new Int 10).run
        [Op.set "a" 5, Op.remove "a", Op.set "b" 1, Op.get "a"]).nonEmptyLists ∧
      ((HashMap.new Int 10).run
        [Op.set "a" 5, Op.remove "a", Op.set "b" 1, Op.get "a"]).itemsInMap
      ≤ ((HashMap.new Int 10).run
        [Op.set "a" 5, Op.remove "a", Op.set "b" 1, Op.get "a"]).mapSize ∧
      ((HashMap.new Int 10).run
        [Op.set "a" 5, Op.remove "a", Op.set "b" 1, Op.get "a"]).load ≤ 1 ∧
      ((HashMap.new Int 10).setAll [("a", 5), ("b", 6)]).itemsInMap
        = [("a", (5 : Int)), ("b", 6)].length :=
  C9_load_counter 10 (by decide) (by decide)
    [Op.set "a" 5, Op.remove "a", Op.set "b" 1, Op.get "a"] [("a", 5), ("b", 6)] (by decide)

/-- C20. Operations on one key do not disturb another: in a table with `mapSize ≥ 1`,
for keys `K ≠ K'` and every value `V'`, `get K` returns the same value after
`set K' V'` as before it, and the same value after `remove K'` as before it, whether
or not those calls succeed or find `K'`. -/
theorem C20_other_key_undisturbed {T : Type} [Inhabited T] [DecidableEq T] (m : HashMap T)
    (_hwf : m.WF) (_h1 : 1 ≤ m.mapSize) (K K' : String) (hne : K ≠ K') (V' : T) :
    (m.set K' V').2.get K = m.get K ∧ (m.remove K').2.get K = m.get K := by
  constructor
  · apply get_congr
    · rcases set_cases m K' V' with ⟨_, _, hsz⟩ | ⟨_, _, _, _, _, _, hset⟩
      · exact hsz
      · rw [hset]; rfl
    · exact scan_after_set m K K' V' hne
  · apply get_congr
    · exact (remove_keys m K').2.2
    · exact scan_after_remove m K K' hne

/-- Witness of C20 on a table of capacity 1, where both keys share the only list. -/
theorem C20_other_key_undisturbed_witness :
    ((((HashMap.new Int 1).set "a" 5).2.set "b" 6).2.set "b" 9).2.get "a"
        = (((HashMap.new Int 1).set "a" 5).2.set "b" 6).2.get "a" ∧
      ((((HashMap.new Int 1).set "a" 5).2.set "b" 6).2.remove "b").2.get "a"
        = (((HashMap.new Int 1).set "a" 5).2.set "b" 6).2.get "a" :=
  C20_other_key_undisturbed (((HashMap.new Int 1).set "a" 5).2.set "b" 6).2 (by decide)
    (by decide) "a" "b" (by decide) 9

/-- C16. `remove` is a value-only mutation: in a table with `mapSize ≥ 1`, after
`remove K` every list has the same length and the same sequence of keys as before, and
every pair has the same value as before except at most one, the first pair with key `K`
in the seven-list probe scan (attempts 0..6), whose value becomes the type default; if
there is no such pair or `K` is empty the table is unchanged. -/
theorem C16_remove_value_only {T : Type} [Inhabited T] (m : HashMap T)
    (hwf : m.WF) (h1 : 1 ≤ m.mapSize) (K : String) :
    (m.remove K).2.map.length = m.map.length ∧
    (∀ i, ((m.remove K).2.listAt i).map Prod.fst = (m.listAt i).map Prod.fst) ∧
    ((K = "" ∨ ∀ a, a < 7 → scanList K (m.listAt (m.probeIndex (m.hash K) a)) = none) →
      (m.remove K).2 = m) ∧
    (∀ (g : Nat) (v : T), K ≠ "" → g < 7 →
      (∀ b, b < g → scanList K (m.listAt (m.probeIndex (m.hash K) b)) = none) →
      scanList K (m.listAt (m.probeIndex (m.hash K) g)) = some v →
      ((m.remove K).2.listAt (m.probeIndex (m.hash K) g))[
          firstPos K (m.listAt (m.probeIndex (m.hash K) g))]? = some (K, default) ∧
      (m.listAt (m.probeIndex (m.hash K) g))[
          firstPos K (m.listAt (m.probeIndex (m.hash K) g))]? = some (K, v) ∧
      (∀ i j, ¬ (i = m.probeIndex (m.hash K) g ∧
          j = firstPos K (m.listAt (m.probeIndex (m.hash K) g))) →
        ((m.remove K).2.listAt i)[j]? = (m.listAt i)[j]?)) := by
  have hkeys := (remove_keys m K).1
  refine ⟨length_of_map_keys m _ hkeys, listAt_keys_of_map_keys m _ hkeys, ?_, ?_⟩
  · intro h
    by_cases hK : K = ""
    · simp [HashMap.remove, hK]
    · simp only [HashMap.remove, hK, if_false]
      rcases h with h | h
      · exact absurd h hK
      · rw [removeLoop_of_none m K (m.hash K) 7 0 (fun b hb => by simpa using h b hb)]
  · intro g v hK hg hpre hhit
    have hrem : m.remove K = (v, m.storeList (m.probeIndex (m.hash K) g)
        (assignFirst K default (m.listAt (m.probeIndex (m.hash K) g)))) := by
      simp only [HashMap.remove, hK, if_false]
      have := removeLoop_first_hit m K (m.hash K) v g 7 0 hg
        (fun b hb => by simpa using hpre b hb) (by simpa using hhit)
      simpa using this
    have hlt := probeIndex_lt m hwf h1 (m.hash K) g
    rw [hrem]
    refine ⟨?_, ?_, ?_⟩
    · simp only
      rw [listAt_storeList_self m _ _ hlt]
      exact assignFirst_getElem?_firstPos K default _ v hhit
    · have h2 := assignFirst_getElem?_firstPos K v _ v hhit
      have h3 : assignFirst K v (m.listAt (m.probeIndex (m.hash K) g))
          = m.listAt (m.probeIndex (m.hash K) g) := by
        generalize m.listAt (m.probeIndex (m.hash K) g) = l at hhit
        induction l with
        | nil => rfl
        | cons p ps ih =>
          by_cases hp : p.1 = K
          · simp only [scanList, hp, if_true, Option.some.injEq] at hhit
            simp only [assignFirst, hp, if_true]
            rw [← hhit, ← hp]
          · simp only [scanList, hp, if_false] at hhit
            simp only [assignFirst, hp, if_false]
            rw [ih hhit]
      rw [h3] at h2
      exact h2
    · intro i j hij
      simp only
      by_cases hi : i = m.probeIndex (m.hash K) g
      · subst hi
        rw [listAt_storeList_self m _ _ hlt]
        exact assignFirst_getElem?_ne K default _ j (fun hj => hij ⟨rfl, hj⟩)
      · rw [listAt_storeList_ne m _ i _ hi]

/-- Witness of C16 on `pairTable` (capacity 1, list 0 holds `"a"` and `"b"`):
`remove "b"` resets the second pair of list 0 and nothing else. -/
theorem C16_remove_value_only_witness :
    (pairTable.remove "b").2.map.length = pairTable.map.length ∧
    (∀ i, ((pairTable.remove "b").2.listAt i).map Prod.fst
      = (pairTable.listAt i).map Prod.fst) ∧
    ((pairTable.remove "b").2.listAt (pairTable.probeIndex (pairTable.hash "b") 0))[
        firstPos "b" (pairTable.listAt (pairTable.probeIndex (pairTable.hash "b") 0))]?
      = some ("b", default) ∧
    (pairTable.listAt (pairTable.probeIndex (pairTable.hash "b") 0))[
        firstPos "b" (pairTable.listAt (pairTable.probeIndex (pairTable.hash "b") 0))]?
      = some ("b", 6) ∧
    (∀ i j, ¬ (i = pairTable.probeIndex (pairTable.hash "b") 0 ∧
        j = firstPos "b" (pairTable.listAt (pairTable.probeIndex (pairTable.hash "b") 0))) →
      ((pairTable.remove "b").2.listAt i)[j]? = (pairTable.listAt i)[j]?) :=
  ⟨(C16_remove_value_only pairTable (by decide) (by decide) "b").1,
    (C16_remove_value_only pairTable (by decide) (by decide) "b").2.1,
    (C16_remove_value_only pairTable (by decide) (by decide) "b").2.2.2 0 6 (by decide)
      (by decide) (by decide) (by decide)⟩

/-- C15. `set` inspects at most six lists (attempts 0..5): in a table with
`mapSize ≥ 1` and for a non-empty key `K`, if the six lists at probe attempts 0..5 are
all non-empty and none holds `K`, then `set K V` returns `true`, `itemsInMap` is
unchanged, and every list whose index is none of `(hash K + a * a) % mapSize`,
`a = 0, ..., 5`, is unchanged, whatever the list at attempt 6 holds.  The pair is
appended to the list inspected last, the one at attempt 5. -/
theorem C15_set_six_lists {T : Type} [Inhabited T] [DecidableEq T] (m : HashMap T)
    (_hwf : m.WF) (_h1 : 1 ≤ m.mapSize) (K : String) (hK : K ≠ "") (V : T)
    (hall : ∀ a, a ≤ 5 → scanList K (m.listAt (m.probeIndex (m.hash K) a)) = none ∧
      m.listAt (m.probeIndex (m.hash K) a) ≠ []) :
    (m.set K V).1 = true ∧
    (m.set K V).2.itemsInMap = m.itemsInMap ∧
    (m.set K V).2.mapSize = m.mapSize ∧
    (∀ i, (∀ a, a ≤ 5 → i ≠ m.probeIndex (m.hash K) a) →
      (m.set K V).2.listAt i = m.listAt i) ∧
    (m.set K V).2 = m.storeList (m.probeIndex (m.hash K) 5)
      (m.listAt (m.probeIndex (m.hash K) 5) ++ [(K, V)]) := by
  have hset := set_of_no_key m K V hK 5 (le_refl 5)
    (fun b hb => hall b (by omega)) (hall 5 (le_refl 5)).1 (Or.inr rfl)
  have hne := (hall 5 (le_refl 5)).2
  simp only [hne, if_false] at hset
  have heq : (m.set K V).2 = m.storeList (m.probeIndex (m.hash K) 5)
      (m.listAt (m.probeIndex (m.hash K) 5) ++ [(K, V)]) := by
    rw [hset]; rfl
  refine ⟨by rw [hset], by rw [heq]; rfl, by rw [heq]; rfl, ?_, heq⟩
  intro i hi
  rw [heq]
  exact listAt_storeList_ne m _ i _ (hi 5 (le_refl 5))

/-- Witness of C15 on `crowdedTable` (capacity 2, both lists non-empty) with the new
key `"g"`. -/
theorem C15_set_six_lists_witness :
    (crowdedTable.set "g" 4).1 = true ∧
    (crowdedTable.set "g" 4).2.itemsInMap = crowdedTable.itemsInMap ∧
    (crowdedTable.set "g" 4).2.mapSize = crowdedTable.mapSize ∧
    (∀ i, (∀ a, a ≤ 5 → i ≠ crowdedTable.probeIndex (crowdedTable.hash "g") a) →
      (crowdedTable.set "g" 4).2.listAt i = crowdedTable.listAt i) ∧
    (crowdedTable.set "g" 4).2 = crowdedTable.storeList
      (crowdedTable.probeIndex (crowdedTable.hash "g") 5)
      (crowdedTable.listAt (crowdedTable.probeIndex (crowdedTable.hash "g") 5) ++ [("g", 4)]) :=
  C15_set_six_lists crowdedTable (by decide) (by decide) "g" (by decide) 4 (by decide)

/-- C13 (the code at the failing input). On `crowdedTable` (capacity 2, list 0 with two
pairs, list 1 with one) the six lists probed for `"g"` are non-empty and free of `"g"`;
the loop of `set` leaves with `smallestListIndex = 1`, the shorter list, yet the pair is
appended to list 0, the list inspected last. -/
theorem C13_fallback_appends_to_last_list :
    crowdedTable = { map := [[("c", 2), ("e", 3)], [("a", 1)]], itemsInMap := 2, mapSize := 2 } ∧
    (∀ a, a ≤ 5 →
      scanList "g" (crowdedTable.listAt (crowdedTable.probeIndex (crowdedTable.hash "g") a))
        = none ∧
      crowdedTable.listAt (crowdedTable.probeIndex (crowdedTable.hash "g") a) ≠ []) ∧
    setLoop crowdedTable "g" (crowdedTable.hash "g") 5 0 32767 (crowdedTable.hash "g")
      = SetExit.done 0 1 ∧
    crowdedTable.set "g" 4 = (true,
      { map := [[("c", 2), ("e", 3), ("g", 4)], [("a", 1)]], itemsInMap := 2, mapSize := 2 }) := by
  decide

/-- C14. Placement in the first empty probed list: in a table with `mapSize ≥ 1`, for a
non-empty key `K` and an attempt `a ≤ 5`, if the lists at attempts `0..a-1` are all
non-empty and none of them holds `K`, and the list at attempt `a` is empty, then
`set K V` returns `true`, that list becomes exactly `[(K, V)]`, every other list is
unchanged, and `itemsInMap` increases by exactly 1, the table being one reached from the
constructor (`size < 2^32`, the range of `mapSize`) by `set`/`get`/`remove` calls. -/
theorem C14_first_empty_list {T : Type} [Inhabited T] [DecidableEq T] (m : HashMap T)
    (hwf : m.WF) (h1 : 1 ≤ m.mapSize) (K : String) (hK : K ≠ "") (V : T) (a : Nat)
    (ha : a ≤ 5)
    (hpre : ∀ b, b < a → scanList K (m.listAt (m.probeIndex (m.hash K) b)) = none ∧
      m.listAt (m.probeIndex (m.hash K) b) ≠ [])
    (hempty : m.listAt (m.probeIndex (m.hash K) a) = []) :
    (m.set K V).1 = true ∧
    (m.set K V).2.listAt (m.probeIndex (m.hash K) a) = [(K, V)] ∧
    (∀ i, i ≠ m.probeIndex (m.hash K) a → (m.set K V).2.listAt i = m.listAt i) ∧
    (m.set K V).2.mapSize = m.mapSize ∧
    (∀ (size : Nat) (ops : List (Op T)), size < 2 ^ 32 →
      m = (HashMap.new T size).run ops →
      (m.set K V).2.itemsInMap = m.itemsInMap + 1) := by
  have hset := set_of_no_key m K V hK a ha hpre (by rw [hempty]; rfl) (Or.inl hempty)
  simp only [hempty, if_true, List.nil_append] at hset
  have hlt := probeIndex_lt m hwf h1 (m.hash K) a
  rw [hset]
  refine ⟨rfl, ?_, ?_, rfl, ?_⟩
  · exact listAt_storeList_self m _ _ hlt
  · intro i hi
    exact listAt_storeList_ne m _ i _ hi
  · intro size ops h32 hreach
    have hsz : m.mapSize = size := by
      rw [hreach]; exact run_mapSize ops (HashMap.new T size)
    obtain ⟨_, _, hc⟩ := reach_counted size (by omega) h32 ops
    rw [← hreach] at hc
    have hroom := counter_room m hwf (by omega) hc _ hlt hempty
    exact Nat.mod_eq_of_lt hroom

/-- Witness of C14: capacity 10, empty table, `set "a" 5` puts `("a", 5)` in list 7 and
`itemsInMap` becomes 1. -/
theorem C14_first_empty_list_witness :
    (HashMap.new Int 10).probeIndex ((HashMap.new Int 10).hash "a") 0 = 7 ∧
    ((HashMap.new Int 10).set "a" 5).1 = true ∧
    ((HashMap.new Int 10).set "a" 5).2.listAt
      ((HashMap.new Int 10).probeIndex ((HashMap.new Int 10).hash "a") 0) = [("a", 5)] ∧
    (∀ i, i ≠ (HashMap.new Int 10).probeIndex ((HashMap.new Int 10).hash "a") 0 →
      ((HashMap.new Int 10).set "a" 5).2.listAt i = (HashMap.new Int 10).listAt i) ∧
    ((HashMap.new Int 10).set "a" 5).2.mapSize = (HashMap.new Int 10).mapSize ∧
    ((HashMap.new Int 10).set "a" 5).2.itemsInMap = (HashMap.new Int 10).itemsInMap + 1 ∧
    ((HashMap.new Int 10).set "a" 5).2.itemsInMap = 1 :=
  ⟨by decide,
    (C14_first_empty_list (HashMap.new Int 10) (by decide) (by decide) "a" (by decide) 5 0
      (by decide) (by decide) (by decide)).1,
    (C14_first_empty_list (HashMap.new Int 10) (by decide) (by decide) "a" (by decide) 5 0
      (by decide) (by decide) (by decide)).2.1,
    (C14_first_empty_list (HashMap.new Int 10) (by decide) (by decide) "a" (by decide) 5 0
      (by decide) (by decide) (by decide)).2.2.1,
    (C14_first_empty_list (HashMap.new Int 10) (by decide) (by decide) "a" (by decide) 5 0
      (by decide) (by decide) (by decide)).2.2.2.1,
    (C14_first_empty_list (HashMap.new Int 10) (by decide) (by decide) "a" (by decide) 5 0
      (by decide) (by decide) (by decide)).2.2.2.2 10 [] (by decide) rfl,
    by decide⟩

/-- C11. The load metric never decreases and the capacity never changes: for every table
reached from the constructor (`1 ≤ size < 2^32`) by `set`/`get`/`remove` calls and every
further call (`set`, `get`, `remove` with any arguments), `mapSize` after the call equals
`mapSize` before, and `itemsInMap` after the call is either equal to `itemsInMap` before
or exactly one greater, the latter only for a `set` that returns `true`.  The capacity
is kept by every call on any table whatever. -/
theorem C11_counters_step {T : Type} [Inhabited T] [DecidableEq T] (size : Nat)
    (hsize : 1 ≤ size) (h32 : size < 2 ^ 32) (ops : List (Op T)) (op : Op T) :
    (((HashMap.new T size).run ops).step op).mapSize
      = ((HashMap.new T size).run ops).mapSize ∧
    ((((HashMap.new T size).run ops).step op).itemsInMap
        = ((HashMap.new T size).run ops).itemsInMap ∨
      ((((HashMap.new T size).run ops).step op).itemsInMap
          = ((HashMap.new T size).run ops).itemsInMap + 1 ∧
        ∃ k v, op = Op.set k v ∧ (((HashMap.new T size).run ops).set k v).1 = true)) ∧
    (∀ m : HashMap T, (m.step op).mapSize = m.mapSize) := by
  obtain ⟨hwf, hsz, hc⟩ := reach_counted size hsize h32 ops
  have h := step_counters ((HashMap.new T size).run ops) hwf (by omega) (by omega) hc op
  exact ⟨h.1, h.2, fun m => step_mapSize m op⟩

/-- Witness of C11: capacity 10, after `set "a" 5; remove "a"`, the call `set "b" 1`
raises `itemsInMap` from 1 to 2. -/
theorem C11_counters_step_witness :
    (((HashMap.new Int 10).run [Op.set "a" 5, Op.remove "a"]).step (Op.set "b" 1)).mapSize
      = ((HashMap.new Int 10).run [Op.set "a" 5, Op.remove "a"]).mapSize ∧
    ((((HashMap.new Int 10).run [Op.set "a" 5, Op.remove "a"]).step (Op.set "b" 1)).itemsInMap
        = ((HashMap.new Int 10).run [Op.set "a" 5, Op.remove "a"]).itemsInMap ∨
      ((((HashMap.new Int 10).run [Op.set "a" 5, Op.remove "a"]).step
            (Op.set "b" 1)).itemsInMap
          = ((HashMap.new Int 10).run [Op.set "a" 5, Op.remove "a"]).itemsInMap + 1 ∧
        ∃ k v, Op.set "b" (1 : Int) = Op.set k v ∧
          (((HashMap.new Int 10).run [Op.set "a" 5, Op.remove "a"]).set k v).1 = true)) ∧
    (∀ m : HashMap Int, (m.step (Op.set "b" 1)).mapSize = m.mapSize) :=
  C11_counters_step 10 (by decide) (by decide) [Op.set "a" 5, Op.remove "a"] (Op.set "b" 1)

/-- C17. The hash function: for every key of characters with non-negative codes (as
`char`: below 128) whose arithmetic does not overflow (the `int` multiplier and product
stay below `2^31`, the `unsigned long` sum below `2^64`) and every table with
`mapSize ≥ 1`, `hash key` is the sum over the positions `i` of
`charCode(key[i]) * (i + 1)^2`, reduced modulo `mapSize`; so `hash key < mapSize`, and
every index `(hash key + a * a) % mapSize` used by `set`/`get`/`remove` lies within the
array. -/
theorem C17_hash_formula {T : Type} (m : HashMap T) (hwf : m.WF) (h1 : 1 ≤ m.mapSize)
    (key : String) (hchar : ∀ c ∈ key.data, c.toNat < 128)
    (hint : ∀ ic ∈ List.enumFrom 0 key.data,
      (ic.1 + 1) ^ 2 < 2 ^ 31 ∧ ic.2.toNat * (ic.1 + 1) ^ 2 < 2 ^ 31)
    (hsum : weightedSum key < 2 ^ 64) :
    m.hash key = weightedSum key % m.mapSize ∧
    m.hash key < m.mapSize ∧
    (∀ a, m.probeIndex (m.hash key) a < m.mapSize ∧
      m.probeIndex (m.hash key) a < m.map.length) := by
  have hloop : hashLoop (charValues key) 0 0 = weightedSum key := by
    unfold charValues
    rw [charValues_of_ascii key.data hchar]
    have := hashLoop_eq key.data 0 0 hint (by simpa [weightedSum] using hsum)
    simpa [weightedSum] using this
  refine ⟨?_, hash_lt m h1 key, ?_⟩
  · unfold HashMap.hash
    rw [hloop]
  · intro a
    have := probeIndex_lt m hwf h1 (m.hash key) a
    exact ⟨by rw [← hwf]; exact this, this⟩

/-- Witness of C17: with `mapSize = 10`, `hash "a" = 97 % 10 = 7`. -/
theorem C17_hash_formula_witness :
    (HashMap.new Int 10).hash "a" = 7 ∧
    (HashMap.new Int 10).hash "a" = weightedSum "a" % (HashMap.new Int 10).mapSize ∧
    (HashMap.new Int 10).hash "a" < (HashMap.new Int 10).mapSize ∧
    (∀ a, (HashMap.new Int 10).probeIndex ((HashMap.new Int 10).hash "a") a
        < (HashMap.new Int 10).mapSize ∧
      (HashMap.new Int 10).probeIndex ((HashMap.new Int 10).hash "a") a
        < (HashMap.new Int 10).map.length) :=
  ⟨by decide, C17_hash_formula (HashMap.new Int 10) (by decide) (by decide) "a" (by decide)
    (by decide) (by decide)⟩

/-- C12. Total collision at capacity 1: on a table constructed with capacity 1, for a
list of pairwise distinct non-empty keys with non-default values inserted in order by
`set`, every `set` returns `true`, list 0 afterwards is exactly the inserted pairs in
insertion order, `itemsInMap` is 1 (when the list is non-empty), and `get` returns for
every inserted key its value. -/
theorem C12_total_collision {T : Type} [Inhabited T] [DecidableEq T]
    (kvs : List (String × T)) (hnd : (kvs.map Prod.fst).Nodup)
    (hne : ∀ kv ∈ kvs, kv.1 ≠ "") (_hval : ∀ kv ∈ kvs, kv.2 ≠ default) :
    (HashMap.new T 1).AllSucceed kvs ∧
    ((HashMap.new T 1).setAll kvs).map = [kvs] ∧
    ((HashMap.new T 1).setAll kvs).listAt 0 = kvs ∧
    (kvs ≠ [] → ((HashMap.new T 1).setAll kvs).itemsInMap = 1) ∧
    (∀ kv ∈ kvs, ((HashMap.new T 1).setAll kvs).get kv.1 = kv.2) := by
  have hnew : HashMap.new T 1 = { map := [[]], itemsInMap := 0, mapSize := 1 } := rfl
  obtain ⟨hall, hres⟩ := setAll_single kvs ([] : Bucket T) 0 hne (by simpa using hnd)
  rw [hnew, hres]
  refine ⟨hall, rfl, rfl, ?_, ?_⟩
  · intro hk
    simp [hk]
  · intro kv hkv
    exact get_single kvs _ kv.1 kv.2 (hne kv hkv) hnd hkv

/-- Witness of C12 in the case of the specification: six distinct keys. -/
theorem C12_total_collision_witness :
    (HashMap.new Int 1).AllSucceed
      [("a", 1), ("b", 2), ("c", 3), ("d", 4), ("e", 5), ("f", 6)] ∧
    ((HashMap.new Int 1).setAll
      [("a", 1), ("b", 2), ("c", 3), ("d", 4), ("e", 5), ("f", 6)]).map
        = [[("a", 1), ("b", 2), ("c", 3), ("d", 4), ("e", 5), ("f", 6)]] ∧
    ((HashMap.new Int 1).setAll
      [("a", 1), ("b", 2), ("c", 3), ("d", 4), ("e", 5), ("f", 6)]).listAt 0
        = [("a", 1), ("b", 2), ("c", 3), ("d", 4), ("e", 5), ("f", 6)] ∧
    ([("a", (1 : Int)), ("b", 2), ("c", 3), ("d", 4), ("e", 5), ("f", 6)] ≠ [] →
      ((HashMap.new Int 1).setAll
        [("a", 1), ("b", 2), ("c", 3), ("d", 4), ("e", 5), ("f", 6)]).itemsInMap = 1) ∧
    (∀ kv ∈ [("a", (1 : Int)), ("b", 2), ("c", 3), ("d", 4), ("e", 5), ("f", 6)],
      ((HashMap.new Int 1).setAll
        [("a", 1), ("b", 2), ("c", 3), ("d", 4), ("e", 5), ("f", 6)]).get kv.1 = kv.2) :=
  C12_total_collision [("a", 1), ("b", 2), ("c", 3), ("d", 4), ("e", 5), ("f", 6)]
    (by decide) (by decide) (by decide)

/-- C18. Key uniqueness: in every table reached from a freshly constructed table
(`size ≥ 1`) by any sequence of `set`/`get`/`remove` calls, no key occurs in more than
one pair of the whole table: the keys of all lists together are pairwise distinct, so no
list holds a key twice and no two different lists hold the same key. -/
theorem C18_key_uniqueness {T : Type} [Inhabited T] [DecidableEq T] (size : Nat)
    (hsize : 1 ≤ size) (ops : List (Op T)) :
    ((HashMap.new T size).run ops).allKeys.Nodup ∧
    (∀ i, ((((HashMap.new T size).run ops).listAt i).map Prod.fst).Nodup) ∧
    (∀ i j, i ≠ j → ∀ p ∈ ((HashMap.new T size).run ops).listAt i,
      ∀ q ∈ ((HashMap.new T size).run ops).listAt j, p.1 ≠ q.1) := by
  obtain ⟨hwf, hsz, hp⟩ := new_placed T size
  have hnd := (run_keys ops (HashMap.new T size) hwf (by omega) hp
    (by rw [new_keys]; exact List.nodup_nil) (by rw [new_keys]; simp)).1
  exact ⟨hnd, keys_apart_of_nodup _ hnd⟩

/-- Witness of C18: capacity 2 with colliding keys, a removal and repeated insertions. -/
theorem C18_key_uniqueness_witness :
    ((HashMap.new Int 2).run [Op.set "a" 1, Op.set "c" 2, Op.set "e" 3, Op.remove "a",
      Op.set "a" 7, Op.set "c" 9]).allKeys.Nodup ∧
    (∀ i, ((((HashMap.new Int 2).run [Op.set "a" 1, Op.set "c" 2, Op.set "e" 3,
      Op.remove "a", Op.set "a" 7, Op.set "c" 9]).listAt i).map Prod.fst).Nodup) ∧
    (∀ i j, i ≠ j → ∀ p ∈ ((HashMap.new Int 2).run [Op.set "a" 1, Op.set "c" 2,
        Op.set "e" 3, Op.remove "a", Op.set "a" 7, Op.set "c" 9]).listAt i,
      ∀ q ∈ ((HashMap.new Int 2).run [Op.set "a" 1, Op.set "c" 2, Op.set "e" 3,
        Op.remove "a", Op.set "a" 7, Op.set "c" 9]).listAt j, p.1 ≠ q.1) :=
  C18_key_uniqueness 2 (by decide) [Op.set "a" 1, Op.set "c" 2, Op.set "e" 3, Op.remove "a",
    Op.set "a" 7, Op.set "c" 9]

/-- C19. Every stored pair stays reachable: in every table reached from a freshly
constructed table (`size ≥ 1`) by any sequence of `set`/`get`/`remove` calls, every pair
`(K, V)` present in a list lies in the list at index `(hash K + a * a) % mapSize` for
some `a` in `0..5`, and `get K` returns exactly `V`. -/
theorem C19_entries_reachable {T : Type} [Inhabited T] [DecidableEq T] (size : Nat)
    (hsize : 1 ≤ size) (ops : List (Op T)) (i : Nat) (K : String) (V : T)
    (hmem : (K, V) ∈ ((HashMap.new T size).run ops).listAt i) :
    (∃ a, a ≤ 5 ∧ ((HashMap.new T size).run ops).probeIndex
      (((HashMap.new T size).run ops).hash K) a = i) ∧
    ((HashMap.new T size).run ops).get K = V := by
  obtain ⟨hwf, hsz, hp⟩ := new_placed T size
  obtain ⟨_, _, hpl⟩ := run_placed ops (HashMap.new T size) hwf (by omega) hp
  obtain ⟨hnd, hne⟩ := run_keys ops (HashMap.new T size) hwf (by omega) hp
    (by rw [new_keys]; exact List.nodup_nil) (by rw [new_keys]; simp)
  generalize (HashMap.new T size).run ops = m at hmem hpl hnd hne ⊢
  obtain ⟨a, ha, hidx, _⟩ := hpl i (K, V) hmem
  simp only at hidx
  refine ⟨⟨a, ha, hidx⟩, ?_⟩
  have hflat := mem_flatten_of_mem_listAt m i (K, V) hmem
  have hK : K ≠ "" := hne K (List.mem_map_of_mem Prod.fst hflat)
  simp only [HashMap.get, hK, if_false]
  have hsome : scanList K (m.listAt (m.probeIndex (m.hash K) (0 + a))) ≠ none := by
    rw [Nat.zero_add, hidx]
    intro hn
    exact (scanList_none_iff K _).mp hn (K, V) hmem rfl
  obtain ⟨g, hg⟩ := getLoop_mem m K (m.hash K) 7 0 ⟨a, by omega, hsome⟩
  have hflat2 := mem_flatten_of_mem_listAt m _ _ hg
  have heq := List.inj_on_of_nodup_map hnd hflat2 hflat rfl
  exact (Prod.mk.inj heq).2

/-- Witness of C19 on capacity 2 after `set "a" 1; set "c" 2; set "e" 3`: the pair
`("e", 3)` was appended to list 0 after six probes and is read back. -/
theorem C19_entries_reachable_witness :
    (∃ a, a ≤ 5 ∧ ((HashMap.new Int 2).run
        [Op.set "a" 1, Op.set "c" 2, Op.set "e" 3]).probeIndex
      (((HashMap.new Int 2).run [Op.set "a" 1, Op.set "c" 2, Op.set "e" 3]).hash "e") a = 0) ∧
    ((HashMap.new Int 2).run [Op.set "a" 1, Op.set "c" 2, Op.set "e" 3]).get "e" = 3 :=
  C19_entries_reachable 2 (by decide) [Op.set "a" 1, Op.set "c" 2, Op.set "e" 3] 0 "e" 3
    (by decide)

end HashMapSpec
